import Mathlib

/-!
Verification of the aquarana Opus decoder core (bit readers, range decoder,
TOC parser, packet demuxer, CELT frame controller) against its specification.

Byte buffers are modelled as lists of naturals below 256 (`u8` values).
Rust `usize`/`u64` arithmetic is modelled over `Nat` with explicit
`% 2 ^ 64` where the source relies on wrapping shifts; `i32` values are
modelled as `Int`.  Fallible operations (panics of the source) are
modelled with `Option`.
-/

set_option linter.unusedVariables false
set_option maxRecDepth 4000

namespace Aquarana

/-- Well-formed byte buffer: every entry is a `u8` value. -/
def WfBytes (bytes : List Nat) : Prop := ∀ b ∈ bytes, b < 256

instance (bytes : List Nat) : Decidable (WfBytes bytes) :=
  inferInstanceAs (Decidable (∀ b ∈ bytes, b < 256))

instance {ε α : Type} [DecidableEq ε] [DecidableEq α] : DecidableEq (Except ε α) :=
  fun a b =>
    match a, b with
    | Except.ok x, Except.ok y =>
      if h : x = y then .isTrue (by rw [h])
      else .isFalse (by intro hc; injection hc; contradiction)
    | Except.error x, Except.error y =>
      if h : x = y then .isTrue (by rw [h])
      else .isFalse (by intro hc; injection hc; contradiction)
    | Except.ok _, Except.error _ => .isFalse (by intro hc; exact Except.noConfusion hc)
    | Except.error _, Except.ok _ => .isFalse (by intro hc; exact Except.noConfusion hc)

/-- Disjoint bitwise or is addition: the low `k` bits of `a` are clear and
`b` fits in `k` bits. -/
theorem lor_eq_add_of_disjoint :
    ∀ (k a b : Nat), a % 2 ^ k = 0 → b < 2 ^ k → a ||| b = a + b := by
  intro k
  induction k with
  | zero =>
    intro a b _ hb
    have : b = 0 := by omega
    subst this
    simp
  | succ k ih =>
    intro a b ha hb
    have hpow : (2:Nat) ^ (k+1) = 2 ^ k * 2 := by ring
    have ha2 : a % 2 = 0 := by
      have h2 : (2:Nat) ∣ 2 ^ (k+1) := dvd_pow_self 2 (Nat.succ_ne_zero k)
      have : (2:Nat) ∣ a := dvd_trans h2 (Nat.dvd_of_mod_eq_zero ha)
      omega
    have haq : (a / 2) % 2 ^ k = 0 := by
      have hdvd : 2 ^ (k+1) ∣ a := Nat.dvd_of_mod_eq_zero ha
      obtain ⟨c, hc⟩ := hdvd
      have hdiv : a / 2 = 2 ^ k * c := by
        subst hc
        rw [hpow]
        have h2 : 2 ^ k * 2 * c = (2 ^ k * c) * 2 := by ring
        rw [h2, Nat.mul_div_cancel _ (by omega)]
      simp [hdiv, Nat.mul_mod_right]
    have hbq : b / 2 < 2 ^ k := by omega
    have key : a / 2 ||| b / 2 = a / 2 + b / 2 := ih _ _ haq hbq
    have hba : 2 * (a / 2) = a := by omega
    rcases Nat.even_or_odd b with hbe | hbo
    · have hb2 : b % 2 = 0 := Nat.even_iff.mp hbe
      have hbb : 2 * (b / 2) = b := by omega
      calc a ||| b = Nat.bit false (a / 2) ||| Nat.bit false (b / 2) := by
            simp [Nat.bit, hba, hbb]
        _ = Nat.bit (false || false) (a / 2 ||| b / 2) := Nat.lor_bit _ _ _ _
        _ = 2 * (a / 2 + b / 2) := by rw [key]; simp [Nat.bit]
        _ = a + b := by omega
    · have hb2 : b % 2 = 1 := Nat.odd_iff.mp hbo
      have hbb : 2 * (b / 2) + 1 = b := by omega
      calc a ||| b = Nat.bit false (a / 2) ||| Nat.bit true (b / 2) := by
            simp [Nat.bit, hba, hbb]
        _ = Nat.bit (false || true) (a / 2 ||| b / 2) := Nat.lor_bit _ _ _ _
        _ = 2 * (a / 2 + b / 2) + 1 := by rw [key]; simp [Nat.bit]
        _ = a + b := by omega

/-! ### Forward / reverse bitstream semantics

`streamBitBE bytes i` is bit `i` of the forward stream: bytes left to
right, most significant bit first, zero past the end of the buffer.
`streamBitLE bytes i` is bit `i` of the reverse stream: bytes from the
tail inward, least significant bit of each byte first, zero past the
(shared) capacity. -/

def streamBitBE (bytes : List Nat) (i : Nat) : Nat :=
  (bytes.getD (i / 8) 0 >>> (7 - i % 8)) &&& 1

def streamBitLE (bytes : List Nat) (i : Nat) : Nat :=
  if i / 8 < bytes.length then
    (bytes.getD (bytes.length - 1 - i / 8) 0 >>> (i % 8)) &&& 1
  else 0

/-- Value of the `n` forward-stream bits starting at position `p`
(most significant bit first). -/
def bitsBE (bytes : List Nat) (p : Nat) : Nat → Nat
  | 0 => 0
  | n+1 => bitsBE bytes p n * 2 + streamBitBE bytes (p + n)

/-- Value of the `n` reverse-stream bits starting at position `p`
(least significant bit first). -/
def bitsLE (bytes : List Nat) (p : Nat) : Nat → Nat
  | 0 => 0
  | n+1 => bitsLE bytes p n + streamBitLE bytes (p + n) * 2 ^ n

theorem streamBitBE_le_one (bytes : List Nat) (i : Nat) : streamBitBE bytes i ≤ 1 := by
  unfold streamBitBE
  have := Nat.and_le_right (n := bytes.getD (i / 8) 0 >>> (7 - i % 8)) (m := 1)
  omega

theorem streamBitLE_le_one (bytes : List Nat) (i : Nat) : streamBitLE bytes i ≤ 1 := by
  unfold streamBitLE
  split
  · have := Nat.and_le_right (n := bytes.getD (bytes.length - 1 - i / 8) 0 >>> (i % 8)) (m := 1)
    omega
  · omega

theorem bitsBE_lt (bytes : List Nat) (p n : Nat) : bitsBE bytes p n < 2 ^ n := by
  induction n with
  | zero => simp [bitsBE]
  | succ n ih =>
    have hb := streamBitBE_le_one bytes (p + n)
    simp only [bitsBE, pow_succ]
    omega

theorem bitsLE_lt (bytes : List Nat) (p n : Nat) : bitsLE bytes p n < 2 ^ n := by
  induction n with
  | zero => simp [bitsLE]
  | succ n ih =>
    have hb := streamBitLE_le_one bytes (p + n)
    simp only [bitsLE, pow_succ]
    nlinarith

theorem bitsBE_append (bytes : List Nat) (p m n : Nat) :
    bitsBE bytes p (m + n) = bitsBE bytes p m * 2 ^ n + bitsBE bytes (p + m) n := by
  induction n with
  | zero => simp [bitsBE]
  | succ n ih =>
    have : m + (n + 1) = (m + n) + 1 := by omega
    rw [this]
    simp only [bitsBE, ih]
    have : p + (m + n) = p + m + n := by omega
    rw [this, pow_succ]
    ring

theorem bitsLE_append (bytes : List Nat) (p m n : Nat) :
    bitsLE bytes p (m + n) = bitsLE bytes p m + 2 ^ m * bitsLE bytes (p + m) n := by
  induction n with
  | zero => simp [bitsLE]
  | succ n ih =>
    have h1 : m + (n + 1) = (m + n) + 1 := by omega
    rw [h1]
    simp only [bitsLE, ih]
    have h2 : p + (m + n) = p + m + n := by omega
    rw [h2, pow_add]
    ring

theorem bitsBE_div (bytes : List Nat) (p l n : Nat) (h : n ≤ l) :
    bitsBE bytes p l / 2 ^ (l - n) = bitsBE bytes p n := by
  obtain ⟨d, rfl⟩ := Nat.exists_eq_add_of_le h
  rw [Nat.add_sub_cancel_left, bitsBE_append, Nat.mul_comm,
      Nat.mul_add_div (Nat.pos_pow_of_pos _ (by omega)),
      Nat.div_eq_of_lt (bitsBE_lt bytes (p + n) d)]
  omega

theorem bitsBE_mod (bytes : List Nat) (p l m : Nat) (h : m ≤ l) :
    bitsBE bytes p l % 2 ^ m = bitsBE bytes (p + (l - m)) m := by
  obtain ⟨d, rfl⟩ : ∃ d, l = d + m := ⟨l - m, by omega⟩
  rw [Nat.add_sub_cancel, bitsBE_append,
      Nat.mul_comm (bitsBE bytes p d) (2 ^ m), Nat.mul_add_mod,
      Nat.mod_eq_of_lt (bitsBE_lt bytes (p + d) m)]

theorem bitsLE_mod (bytes : List Nat) (p l n : Nat) (h : n ≤ l) :
    bitsLE bytes p l % 2 ^ n = bitsLE bytes p n := by
  obtain ⟨d, rfl⟩ := Nat.exists_eq_add_of_le h
  rw [bitsLE_append, Nat.mul_comm, Nat.add_mul_mod_self_right,
      Nat.mod_eq_of_lt (bitsLE_lt bytes p n)]

theorem bitsLE_div (bytes : List Nat) (p l n : Nat) (h : n ≤ l) :
    bitsLE bytes p l / 2 ^ n = bitsLE bytes (p + n) (l - n) := by
  obtain ⟨d, rfl⟩ := Nat.exists_eq_add_of_le h
  rw [Nat.add_sub_cancel_left, bitsLE_append,
      Nat.add_mul_div_left _ _ (Nat.pos_pow_of_pos _ (by omega)),
      Nat.div_eq_of_lt (bitsLE_lt bytes p n)]
  omega

theorem bitsBE_zero_of_past_end (bytes : List Nat) (p n : Nat)
    (h : 8 * bytes.length ≤ p) : bitsBE bytes p n = 0 := by
  induction n with
  | zero => rfl
  | succ n ih =>
    simp only [bitsBE, ih]
    have hb : streamBitBE bytes (p + n) = 0 := by
      unfold streamBitBE
      have : bytes.length ≤ (p + n) / 8 := by omega
      rw [List.getD_eq_default _ _ (by omega)]
      simp
    omega

theorem bitsLE_zero_of_past_end (bytes : List Nat) (p n : Nat)
    (h : 8 * bytes.length ≤ p) : bitsLE bytes p n = 0 := by
  induction n with
  | zero => rfl
  | succ n ih =>
    simp only [bitsLE, ih]
    have hb : streamBitLE bytes (p + n) = 0 := by
      unfold streamBitLE
      have : ¬ (p + n) / 8 < bytes.length := by omega
      simp [this]
    simp [hb]

/-! ### Byte folds

Both `read` helpers fold a byte slice big-endian (`value << 8 | byte`). -/

/-- The fold used by `BigEndianBitReader::read` / `LittleEndianBitReader::read`. -/
def byteFold (l : List Nat) : Nat := l.foldl (fun v byte => v <<< 8 ||| byte) 0

theorem byteFold_cons_general (l : List Nat) (hwf : ∀ b ∈ l, b < 256) :
    ∀ v : Nat, l.foldl (fun v byte => v <<< 8 ||| byte) v =
      v * 2 ^ (8 * l.length) + byteFold l := by
  induction l with
  | nil => intro v; simp [byteFold]
  | cons b l ih =>
    intro v
    have hb : b < 256 := hwf b (List.mem_cons_self _ _)
    have hwl : ∀ x ∈ l, x < 256 := fun x hx => hwf x (List.mem_cons_of_mem _ hx)
    have hstep : ∀ w : Nat, w <<< 8 ||| b = w * 256 + b := by
      intro w
      rw [Nat.shiftLeft_eq]
      exact lor_eq_add_of_disjoint 8 (w * 2 ^ 8) b (by simp [Nat.mul_mod_left]) (by omega)
    have hlen : (b :: l).length = l.length + 1 := rfl
    have hp : (2:Nat) ^ (8 * (l.length + 1)) = 2 ^ (8 * l.length) * 256 := by
      rw [Nat.mul_add, pow_add]
      norm_num
    simp only [List.foldl_cons, byteFold] at *
    rw [hstep, ih hwl, hstep 0, ih hwl (0 * 256 + b), hlen, hp]
    ring

theorem byteFold_cons (b : Nat) (l : List Nat) (hb : b < 256) (hwf : ∀ x ∈ l, x < 256) :
    byteFold (b :: l) = b * 2 ^ (8 * l.length) + byteFold l := by
  have hgen := byteFold_cons_general l hwf
  have hstep : (0:Nat) <<< 8 ||| b = b := by
    rw [Nat.shiftLeft_eq]
    simp
  simp only [byteFold, List.foldl_cons, hstep]
  exact hgen b

theorem byteFold_lt (l : List Nat) (hwf : ∀ b ∈ l, b < 256) :
    byteFold l < 2 ^ (8 * l.length) := by
  induction l with
  | nil => simp [byteFold]
  | cons b l ih =>
    have hb : b < 256 := hwf b (List.mem_cons_self _ _)
    have hwl : ∀ x ∈ l, x < 256 := fun x hx => hwf x (List.mem_cons_of_mem _ hx)
    rw [byteFold_cons b l hb hwl]
    have h1 := ih hwl
    have hlen : (b :: l).length = l.length + 1 := rfl
    have hp : (2:Nat) ^ (8 * (l.length + 1)) = 2 ^ (8 * l.length) * 256 := by
      rw [Nat.mul_add, pow_add]
      norm_num
    rw [hlen, hp]
    nlinarith

/-- Reassembling a byte from its eight bits, most significant first. -/
theorem byte_recompose_be : ∀ b : Nat, b < 256 →
    ((((((((b >>> 7 &&& 1) * 2 + (b >>> 6 &&& 1)) * 2 + (b >>> 5 &&& 1)) * 2 +
      (b >>> 4 &&& 1)) * 2 + (b >>> 3 &&& 1)) * 2 + (b >>> 2 &&& 1)) * 2 +
      (b >>> 1 &&& 1)) * 2 + (b >>> 0 &&& 1)) = b := by decide

/-- Reassembling a byte from its eight bits, least significant first. -/
theorem byte_recompose_le : ∀ b : Nat, b < 256 →
    (b >>> 0 &&& 1) + (b >>> 1 &&& 1) * 2 + (b >>> 2 &&& 1) * 4 + (b >>> 3 &&& 1) * 8 +
    (b >>> 4 &&& 1) * 16 + (b >>> 5 &&& 1) * 32 + (b >>> 6 &&& 1) * 64 +
    (b >>> 7 &&& 1) * 128 = b := by decide

theorem getD_mem_of_lt (l : List Nat) (j : Nat) (h : j < l.length) : l.getD j 0 ∈ l := by
  rw [List.getD_eq_getElem l 0 h]
  exact List.getElem_mem h

/-- A byte-aligned group of eight forward-stream bits is the byte itself. -/
theorem bitsBE_byte (bytes : List Nat) (wf : WfBytes bytes) (j : Nat)
    (hj : j < bytes.length) : bitsBE bytes (8 * j) 8 = bytes.getD j 0 := by
  have hb : bytes.getD j 0 < 256 := wf _ (getD_mem_of_lt bytes j hj)
  have hbit : ∀ k, k < 8 → streamBitBE bytes (8 * j + k) = bytes.getD j 0 >>> (7 - k) &&& 1 := by
    intro k hk
    unfold streamBitBE
    have hdiv : (8 * j + k) / 8 = j := by omega
    have hmod : (8 * j + k) % 8 = k := by omega
    rw [hdiv, hmod]
  have hunfold : bitsBE bytes (8 * j) 8 =
      ((((((((0 * 2 + streamBitBE bytes (8 * j + 0)) * 2 + streamBitBE bytes (8 * j + 1)) * 2 +
        streamBitBE bytes (8 * j + 2)) * 2 + streamBitBE bytes (8 * j + 3)) * 2 +
        streamBitBE bytes (8 * j + 4)) * 2 + streamBitBE bytes (8 * j + 5)) * 2 +
        streamBitBE bytes (8 * j + 6)) * 2 + streamBitBE bytes (8 * j + 7)) := rfl
  rw [hunfold, hbit 0 (by omega), hbit 1 (by omega), hbit 2 (by omega), hbit 3 (by omega),
      hbit 4 (by omega), hbit 5 (by omega), hbit 6 (by omega), hbit 7 (by omega)]
  have hrec := byte_recompose_be (bytes.getD j 0) hb
  norm_num at hrec ⊢
  omega

/-- A byte-aligned group of eight reverse-stream bits is the matching tail byte. -/
theorem bitsLE_byte (bytes : List Nat) (wf : WfBytes bytes) (j : Nat)
    (hj : j < bytes.length) :
    bitsLE bytes (8 * j) 8 = bytes.getD (bytes.length - 1 - j) 0 := by
  have hb : bytes.getD (bytes.length - 1 - j) 0 < 256 :=
    wf _ (getD_mem_of_lt bytes _ (by omega))
  have hbit : ∀ k, k < 8 →
      streamBitLE bytes (8 * j + k) = bytes.getD (bytes.length - 1 - j) 0 >>> k &&& 1 := by
    intro k hk
    unfold streamBitLE
    have hdiv : (8 * j + k) / 8 = j := by omega
    have hmod : (8 * j + k) % 8 = k := by omega
    rw [hdiv, hmod, if_pos hj]
  have hunfold : bitsLE bytes (8 * j) 8 =
      streamBitLE bytes (8 * j + 0) * 2 ^ 0 + streamBitLE bytes (8 * j + 1) * 2 ^ 1 +
      streamBitLE bytes (8 * j + 2) * 2 ^ 2 + streamBitLE bytes (8 * j + 3) * 2 ^ 3 +
      streamBitLE bytes (8 * j + 4) * 2 ^ 4 + streamBitLE bytes (8 * j + 5) * 2 ^ 5 +
      streamBitLE bytes (8 * j + 6) * 2 ^ 6 + streamBitLE bytes (8 * j + 7) * 2 ^ 7 := by
    show bitsLE bytes (8 * j) 8 = _
    simp [bitsLE]
  rw [hunfold, hbit 0 (by omega), hbit 1 (by omega), hbit 2 (by omega), hbit 3 (by omega),
      hbit 4 (by omega), hbit 5 (by omega), hbit 6 (by omega), hbit 7 (by omega)]
  have hrec := byte_recompose_le (bytes.getD (bytes.length - 1 - j) 0) hb
  norm_num at hrec ⊢
  omega

/-! ### The big-endian (forward) bit reader, from `src/opus/entropy/bits.rs` -/

structure BigEndianBitReader where
  bytes : List Nat
  index : Nat
  cache : Nat
  left : Nat

namespace BigEndianBitReader

/-- Tells if it is still possible to read bits from an internal buffer
(`bits.rs`, `readable`). -/
def readable (r : BigEndianBitReader) : Bool := r.index < r.bytes.length

/-- Gets a `count`-byte sequence from the internal buffer (`bits.rs`,
`read::<T>`): fold the available bytes big-endian, zero-padding at the
bottom when the buffer ends early. -/
def read (r : BigEndianBitReader) (count : Nat) : Nat :=
  let start := r.index
  let stop := min r.bytes.length (r.index + count)
  byteFold ((r.bytes.drop start).take (stop - start)) <<< (8 * (count - (stop - start)))

def new (bytes : List Nat) : BigEndianBitReader :=
  let this : BigEndianBitReader := ⟨bytes, 0, 0, 0⟩
  if this.readable then
    { this with cache := this.read 8, index := this.index + 8, left := this.left + 64 }
  else this

/-- Returns `n` bits from the internal buffer (`bits.rs`,
`BigEndianBitReader::get_bits_32`).  The u64 left shift discards high
bits, hence the explicit `% 2 ^ 64`; `left` uses `saturating_sub`,
which is `Nat` subtraction.  The source computes the peeked value with
`checked_shr(64 - n)`, defined for every `1 ≤ n ≤ 64`; all call sites
use `n ≤ 25`. -/
def getBits32 (r : BigEndianBitReader) (n : Nat) : Nat × BigEndianBitReader :=
  if n = 0 then (0, r)
  else
    let r :=
      if r.left ≤ n then
        if r.readable then
          { r with cache := r.cache ||| (r.read 4 <<< (32 - r.left)),
                   index := r.index + 4, left := r.left + 32 }
        else r
      else r
    (r.cache >>> (64 - n),
     { r with cache := (r.cache <<< n) % 2 ^ 64, left := r.left - n })

end BigEndianBitReader

/-! ### The little-endian (reverse) bit reader, from `src/opus/entropy/bits.rs` -/

structure LittleEndianBitReader where
  bytes : List Nat
  index : Nat
  cache : Nat
  left : Nat

namespace LittleEndianBitReader

/-- Note the non-strict comparison, unlike the big-endian reader. -/
def readable (r : LittleEndianBitReader) : Bool := r.index ≤ r.bytes.length

/-- Gets a `count`-byte sequence from the tail of the internal buffer
(`bits.rs`, `LittleEndianBitReader::read::<T>`); `start` uses
`saturating_sub`. -/
def read (r : LittleEndianBitReader) (count : Nat) : Nat :=
  let stop := r.bytes.length - r.index
  let start := stop - count
  byteFold ((r.bytes.drop start).take (stop - start))

def new (bytes : List Nat) : LittleEndianBitReader :=
  let this : LittleEndianBitReader := ⟨bytes, 0, 0, 0⟩
  if this.readable then
    { this with cache := this.read 8, index := this.index + 8, left := this.left + 64 }
  else this

/-- Returns `n` bits from the internal buffer (`bits.rs`,
`LittleEndianBitReader::get_bits_32`).  The mask is
`1u64.checked_shl(n).unwrap_or(0).overflowing_sub(1).0`, which is
`2 ^ n - 1` for `n < 64` and `2 ^ 64 - 1` for larger `n`. -/
def getBits32 (r : LittleEndianBitReader) (n : Nat) : Nat × LittleEndianBitReader :=
  if n = 0 then (0, r)
  else
    let r :=
      if r.left ≤ n then
        if r.readable then
          { r with cache := r.cache ||| (r.read 4 <<< r.left),
                   index := r.index + 4, left := r.left + 32 }
        else r
      else r
    let mask := if 64 ≤ n then 2 ^ 64 - 1 else (1 <<< n) - 1
    (r.cache &&& mask,
     { r with cache := r.cache >>> n, left := r.left - n })

end LittleEndianBitReader

/-- Run a big-endian reader through a list of request widths, discarding
the values. -/
def runBE (r : BigEndianBitReader) : List Nat → BigEndianBitReader
  | [] => r
  | n :: ws => runBE (r.getBits32 n).2 ws

/-- Run a little-endian reader through a list of request widths,
discarding the values. -/
def runLE (r : LittleEndianBitReader) : List Nat → LittleEndianBitReader
  | [] => r
  | n :: ws => runLE (r.getBits32 n).2 ws

/- Sanity checks reproducing the unit tests of `bits.rs`. -/

example :
    let r := BigEndianBitReader.new [0xD6, 0x2D, 0xE3, 0x55, 0xAA, 0x1C, 0xF0, 0x01]
    let (v1, r) := r.getBits32 4
    let (v2, r) := r.getBits32 4
    let (v3, r) := r.getBits32 8
    let (v4, r) := r.getBits32 6
    let (v5, r) := r.getBits32 2
    let (v6, r) := r.getBits32 8
    let (v7, r) := r.getBits32 8
    let (v8, r) := r.getBits32 8
    let (v9, r) := r.getBits32 8
    let (v10, _) := r.getBits32 8
    [v1, v2, v3, v4, v5, v6, v7, v8, v9, v10] =
      [0b1101, 0b0110, 0b00101101, 0b111000, 0b11, 0b01010101, 0b10101010,
       0b00011100, 0b11110000, 0b00000001] := by decide

example :
    let r := LittleEndianBitReader.new
      [197, 105, 76, 120, 136, 74, 169, 50, 225, 8, 231, 211, 227, 151, 186, 58, 173, 139]
    let (v1, r) := r.getBits32 3
    let (v2, r) := r.getBits32 3
    let (v3, r) := r.getBits32 3
    let (v4, r) := r.getBits32 3
    let (v5, r) := r.getBits32 3
    let (v6, r) := r.getBits32 3
    let (v7, r) := r.getBits32 3
    let (v8, r) := r.getBits32 3
    let (v9, r) := r.getBits32 2
    let (v10, _) := r.getBits32 2
    [v1, v2, v3, v4, v5, v6, v7, v8, v9, v10] = [3, 1, 6, 6, 2, 5, 6, 1, 2, 2] := by decide

/-! ### Reader correctness: `read` returns stream bits -/

theorem byteFold_slice_be (bytes : List Nat) (wf : WfBytes bytes) :
    ∀ (c index : Nat), index + c ≤ bytes.length →
      byteFold ((bytes.drop index).take c) = bitsBE bytes (8 * index) (8 * c) := by
  intro c
  induction c with
  | zero => intro index _; simp [byteFold, bitsBE]
  | succ c ih =>
    intro index hle
    have hidx : index < bytes.length := by omega
    have hdrop : bytes.drop index = bytes.getD index 0 :: bytes.drop (index + 1) := by
      rw [List.getD_eq_getElem bytes 0 hidx]
      exact List.drop_eq_getElem_cons hidx
    rw [hdrop, List.take_succ_cons]
    have hrest_wf : ∀ x ∈ (bytes.drop (index + 1)).take c, x < 256 := fun x hx =>
      wf x (List.drop_subset _ _ (List.take_subset _ _ hx))
    have hrest_len : ((bytes.drop (index + 1)).take c).length = c := by
      rw [List.length_take, List.length_drop]
      omega
    have hb : bytes.getD index 0 < 256 := wf _ (getD_mem_of_lt bytes index hidx)
    rw [byteFold_cons _ _ hb hrest_wf, hrest_len, ih (index + 1) (by omega)]
    have hsplit : 8 * (c + 1) = 8 + 8 * c := by omega
    rw [hsplit, bitsBE_append, bitsBE_byte bytes wf index hidx]
    have : 8 * index + 8 = 8 * (index + 1) := by omega
    rw [this]

theorem readBE_eq (bytes : List Nat) (wf : WfBytes bytes) (r : BigEndianBitReader)
    (hb : r.bytes = bytes) (count : Nat) :
    r.read count = bitsBE bytes (8 * r.index) (8 * count) := by
  unfold BigEndianBitReader.read
  rw [hb]
  simp only []
  by_cases hidx : r.index < bytes.length
  · set c := min bytes.length (r.index + count) - r.index with hc
    have hcm : c = min count (bytes.length - r.index) := by omega
    have hle : r.index + c ≤ bytes.length := by omega
    rw [byteFold_slice_be bytes wf c r.index hle, Nat.shiftLeft_eq]
    have hcc : c ≤ count := by omega
    have hsplit : 8 * count = 8 * c + 8 * (count - c) := by omega
    rw [hsplit, bitsBE_append]
    have hzero : bitsBE bytes (8 * r.index + 8 * c) (8 * (count - c)) = 0 := by
      rcases Nat.lt_or_ge c count with hlt | hge
      · have : r.index + c = bytes.length := by omega
        apply bitsBE_zero_of_past_end
        omega
      · have : count - c = 0 := by omega
        rw [this]
        rfl
    rw [hzero]
    ring
  · have hstop : min bytes.length (r.index + count) - r.index = 0 := by omega
    rw [hstop]
    simp [byteFold]
    rw [bitsBE_zero_of_past_end bytes _ _ (by omega)]

theorem byteFold_slice_le (bytes : List Nat) (wf : WfBytes bytes) :
    ∀ (c start : Nat), start + c ≤ bytes.length →
      byteFold ((bytes.drop start).take c) =
        bitsLE bytes (8 * (bytes.length - start - c)) (8 * c) := by
  intro c
  induction c with
  | zero => intro start _; simp [byteFold, bitsLE]
  | succ c ih =>
    intro start hle
    have hidx : start < bytes.length := by omega
    have hdrop : bytes.drop start = bytes.getD start 0 :: bytes.drop (start + 1) := by
      rw [List.getD_eq_getElem bytes 0 hidx]
      exact List.drop_eq_getElem_cons hidx
    rw [hdrop, List.take_succ_cons]
    have hrest_wf : ∀ x ∈ (bytes.drop (start + 1)).take c, x < 256 := fun x hx =>
      wf x (List.drop_subset _ _ (List.take_subset _ _ hx))
    have hrest_len : ((bytes.drop (start + 1)).take c).length = c := by
      rw [List.length_take, List.length_drop]
      omega
    have hb : bytes.getD start 0 < 256 := wf _ (getD_mem_of_lt bytes start hidx)
    rw [byteFold_cons _ _ hb hrest_wf, hrest_len, ih (start + 1) (by omega)]
    have hsplit : 8 * (c + 1) = 8 * c + 8 := by omega
    rw [hsplit, bitsLE_append]
    have hp1 : bytes.length - (start + 1) - c = bytes.length - start - (c + 1) := by omega
    have hp2 : 8 * (bytes.length - start - (c + 1)) + 8 * c =
        8 * (bytes.length - start - 1) := by omega
    rw [hp1, hp2, bitsLE_byte bytes wf _ (by omega)]
    have : bytes.length - 1 - (bytes.length - start - 1) = start := by omega
    rw [this]
    ring

theorem readLE_eq (bytes : List Nat) (wf : WfBytes bytes) (r : LittleEndianBitReader)
    (hb : r.bytes = bytes) (hidx : r.index ≤ bytes.length) (count : Nat) :
    r.read count = bitsLE bytes (8 * r.index) (8 * count) := by
  unfold LittleEndianBitReader.read
  rw [hb]
  simp only []
  set stop := bytes.length - r.index with hstop
  set start := stop - count with hstart
  set c := stop - start with hc
  have hcm : c = min count stop := by omega
  have hstart_c : start + c ≤ bytes.length := by omega
  rw [byteFold_slice_le bytes wf c start hstart_c]
  have hpos : bytes.length - start - c = r.index := by omega
  rw [hpos]
  have hcc : c ≤ count := by omega
  have hsplit : 8 * count = 8 * c + 8 * (count - c) := by omega
  rw [hsplit, bitsLE_append]
  have hzero : bitsLE bytes (8 * r.index + 8 * c) (8 * (count - c)) = 0 := by
    rcases Nat.lt_or_ge c count with hlt | hge
    · have : r.index + c = bytes.length := by omega
      apply bitsLE_zero_of_past_end
      omega
    · have : count - c = 0 := by omega
      rw [this]
      rfl
  rw [hzero]
  ring

/-! ### Reader invariants -/

/-- Abstraction invariant of the forward reader at stream position `pos`:
the top `left` cache bits are the next stream bits, the rest are zero,
and the fetch index lines up with the cache content. -/
structure BEInv (bytes : List Nat) (pos : Nat) (r : BigEndianBitReader) : Prop where
  bytes_eq : r.bytes = bytes
  left_le : r.left ≤ 64
  cache_eq : r.cache = bitsBE bytes pos r.left * 2 ^ (64 - r.left)
  link : r.index < bytes.length → 8 * r.index = pos + r.left
  over : bytes.length ≤ r.index → 8 * bytes.length ≤ pos + r.left

/-- Abstraction invariant of the reverse reader at stream position `pos`.
The link is strict: at `index = length` the reverse reader is still
`readable` but refills with zero content, so only the bound survives. -/
structure LEInv (bytes : List Nat) (pos : Nat) (r : LittleEndianBitReader) : Prop where
  bytes_eq : r.bytes = bytes
  left_le : r.left ≤ 64
  cache_eq : r.cache = bitsLE bytes pos r.left
  link : r.index < bytes.length → 8 * r.index = pos + r.left
  over : bytes.length ≤ r.index → 8 * bytes.length ≤ pos + r.left

theorem BEInv_new (bytes : List Nat) (wf : WfBytes bytes) :
    BEInv bytes 0 (BigEndianBitReader.new bytes) := by
  unfold BigEndianBitReader.new
  by_cases h : (0:Nat) < bytes.length
  · have hr : (⟨bytes, 0, 0, 0⟩ : BigEndianBitReader).readable = true := by
      simp [BigEndianBitReader.readable, h]
    rw [if_pos hr]
    refine ⟨rfl, ?_, ?_, ?_, ?_⟩
    · dsimp only
      omega
    · dsimp only
      rw [readBE_eq bytes wf _ rfl 8]
      norm_num
    · dsimp only
      intro _
      norm_num
    · dsimp only
      intro hle
      omega
  · have hr : (⟨bytes, 0, 0, 0⟩ : BigEndianBitReader).readable = false := by
      simp only [BigEndianBitReader.readable, decide_eq_false_iff_not]
      omega
    rw [if_neg (by simp [hr])]
    refine ⟨rfl, ?_, ?_, ?_, ?_⟩
    · dsimp only
      omega
    · dsimp only
      simp [bitsBE]
    · dsimp only
      intro hlt
      omega
    · dsimp only
      intro _
      omega

theorem LEInv_new (bytes : List Nat) (wf : WfBytes bytes) :
    LEInv bytes 0 (LittleEndianBitReader.new bytes) := by
  unfold LittleEndianBitReader.new
  have hr : (⟨bytes, 0, 0, 0⟩ : LittleEndianBitReader).readable = true := by
    simp [LittleEndianBitReader.readable]
  rw [if_pos hr]
  refine ⟨rfl, ?_, ?_, ?_, ?_⟩
  · dsimp only
    omega
  · dsimp only
    rw [readLE_eq bytes wf _ rfl (by simp) 8]
    norm_num
  · dsimp only
    intro _
    norm_num
  · dsimp only
    intro hlt
    omega

/-- Shifting the top-aligned cache left by `n` keeps the tail bits
top-aligned. -/
theorem cache_shift_mod (B l n : Nat) (hB : B < 2 ^ l) (hl : l ≤ 64) (hn : n ≤ l) :
    B * 2 ^ (64 - l) * 2 ^ n % 2 ^ 64 = B % 2 ^ (l - n) * 2 ^ (64 - (l - n)) := by
  have hq := Nat.div_add_mod B (2 ^ (l - n))
  set q := B / 2 ^ (l - n) with hqdef
  set s := B % 2 ^ (l - n) with hsdef
  have hs : s < 2 ^ (l - n) := Nat.mod_lt _ (Nat.pos_pow_of_pos _ (by omega))
  have key : B * 2 ^ (64 - l) * 2 ^ n = q * 2 ^ 64 + s * 2 ^ (64 - (l - n)) := by
    have h1 : (2:Nat) ^ (l - n) * 2 ^ (64 - l) * 2 ^ n = 2 ^ 64 := by
      rw [← pow_add, ← pow_add]
      congr 1
      omega
    have h2 : (2:Nat) ^ (64 - l) * 2 ^ n = 2 ^ (64 - (l - n)) := by
      rw [← pow_add]
      congr 1
      omega
    calc B * 2 ^ (64 - l) * 2 ^ n
        = (2 ^ (l - n) * q + s) * 2 ^ (64 - l) * 2 ^ n := by rw [hq]
      _ = q * (2 ^ (l - n) * 2 ^ (64 - l) * 2 ^ n) + s * (2 ^ (64 - l) * 2 ^ n) := by ring
      _ = q * 2 ^ 64 + s * 2 ^ (64 - (l - n)) := by rw [h1, h2]
  rw [key, Nat.mul_comm q (2 ^ 64), Nat.mul_add_mod]
  apply Nat.mod_eq_of_lt
  calc s * 2 ^ (64 - (l - n))
      < 2 ^ (l - n) * 2 ^ (64 - (l - n)) :=
        (Nat.mul_lt_mul_right (Nat.pos_pow_of_pos _ (by omega))).mpr hs
    _ = 2 ^ 64 := by
        rw [← pow_add]
        congr 1
        omega

/-- Dividing the top-aligned cache extracts the first `n` content bits. -/
theorem cache_peek_div (B l n : Nat) (hl : l ≤ 64) (hn : n ≤ l) :
    B * 2 ^ (64 - l) / 2 ^ (64 - n) = B / 2 ^ (l - n) := by
  have hexp : 64 - n = (64 - l) + (l - n) := by omega
  rw [hexp, pow_add, ← Nat.div_div_eq_div_mul, Nat.mul_div_cancel _ (Nat.pos_pow_of_pos _ (by omega))]

theorem BE_getBits32_spec (bytes : List Nat) (wf : WfBytes bytes) (pos n : Nat)
    (r : BigEndianBitReader) (inv : BEInv bytes pos r) (hn : n ≤ 25) :
    (r.getBits32 n).1 = bitsBE bytes pos n ∧ BEInv bytes (pos + n) (r.getBits32 n).2 := by
  obtain ⟨hby, hll, hca, hlink, hover⟩ := inv
  by_cases hn0 : n = 0
  · subst hn0
    constructor
    · simp [BigEndianBitReader.getBits32, bitsBE]
    · exact ⟨hby, hll, hca, by simpa using hlink, by simpa using hover⟩
  -- the state after the conditional refill
  have hmain : ∀ r1 : BigEndianBitReader, r1.bytes = bytes → r1.left ≤ 64 →
      r1.cache = bitsBE bytes pos r1.left * 2 ^ (64 - r1.left) →
      (r1.index < bytes.length → 8 * r1.index = pos + r1.left) →
      (bytes.length ≤ r1.index → 8 * bytes.length ≤ pos + r1.left) →
      (n ≤ r1.left ∨ 8 * bytes.length ≤ pos + r1.left) →
      (r1.cache >>> (64 - n) = bitsBE bytes pos n ∧
       BEInv bytes (pos + n)
         ⟨r1.bytes, r1.index, (r1.cache <<< n) % 2 ^ 64, r1.left - n⟩) := by
    intro r1 hby1 hll1 hca1 hlink1 hover1 hcase
    have hBlt := bitsBE_lt bytes pos r1.left
    rcases hcase with hle | hpast
    · -- enough content: peel n bits off the top of the cache
      constructor
      · rw [hca1, Nat.shiftRight_eq_div_pow, cache_peek_div _ _ _ hll1 hle,
            bitsBE_div bytes pos r1.left n hle]
      · refine ⟨hby1, by dsimp only; omega, ?_, ?_, ?_⟩
        · show (r1.cache <<< n) % 2 ^ 64 = bitsBE bytes (pos + n) (r1.left - n) * 2 ^ (64 - (r1.left - n))
          rw [hca1, Nat.shiftLeft_eq, cache_shift_mod _ _ _ hBlt hll1 hle,
              bitsBE_mod bytes pos r1.left (r1.left - n) (by omega)]
          congr 2
          omega
        · dsimp only
          intro hlt
          have := hlink1 hlt
          omega
        · dsimp only
          intro hge
          have := hover1 hge
          omega
    · -- not enough content and the buffer is exhausted: zero-extension
      by_cases hle : n ≤ r1.left
      · constructor
        · rw [hca1, Nat.shiftRight_eq_div_pow, cache_peek_div _ _ _ hll1 hle,
              bitsBE_div bytes pos r1.left n hle]
        · refine ⟨hby1, by dsimp only; omega, ?_, ?_, ?_⟩
          · show (r1.cache <<< n) % 2 ^ 64 = bitsBE bytes (pos + n) (r1.left - n) * 2 ^ (64 - (r1.left - n))
            rw [hca1, Nat.shiftLeft_eq, cache_shift_mod _ _ _ hBlt hll1 hle,
                bitsBE_mod bytes pos r1.left (r1.left - n) (by omega)]
            congr 2
            omega
          · dsimp only
            intro hlt
            have := hlink1 hlt
            omega
          · dsimp only
            intro hge
            omega
      · -- n exceeds the live bits; the missing stream bits are zero
        have hln : r1.left < n := by omega
        have hzero : bitsBE bytes (pos + r1.left) (n - r1.left) = 0 :=
          bitsBE_zero_of_past_end bytes _ _ (by omega)
        have hbitsn : bitsBE bytes pos n = bitsBE bytes pos r1.left * 2 ^ (n - r1.left) := by
          have happ := bitsBE_append bytes pos r1.left (n - r1.left)
          rw [hzero] at happ
          have hsplit : r1.left + (n - r1.left) = n := by omega
          rw [hsplit] at happ
          omega
        constructor
        · rw [hca1, Nat.shiftRight_eq_div_pow, hbitsn]
          have hexp : 64 - r1.left = (n - r1.left) + (64 - n) := by omega
          rw [hexp, pow_add, ← Nat.mul_assoc,
              Nat.mul_div_cancel _ (Nat.pos_pow_of_pos _ (by omega))]
        · have hlz : r1.left - n = 0 := by omega
          refine ⟨hby1, by dsimp only; omega, ?_, ?_, ?_⟩
          · show (r1.cache <<< n) % 2 ^ 64 = bitsBE bytes (pos + n) (r1.left - n) * 2 ^ (64 - (r1.left - n))
            rw [hlz, hca1, Nat.shiftLeft_eq]
            show _ = bitsBE bytes (pos + n) 0 * 2 ^ (64 - 0)
            have h64 : (64 - r1.left) + n = 64 + (n - r1.left) := by omega
            rw [Nat.mul_assoc, ← pow_add, h64]
            have hre : bitsBE bytes pos r1.left * 2 ^ (64 + (n - r1.left)) =
                bitsBE bytes pos r1.left * 2 ^ (n - r1.left) * 2 ^ 64 := by
              rw [pow_add]
              ring
            rw [hre, Nat.mul_mod_left]
            simp [bitsBE]
          · dsimp only
            intro hlt
            have := hlink1 hlt
            omega
          · dsimp only
            intro hge
            omega
  unfold BigEndianBitReader.getBits32
  rw [if_neg hn0]
  by_cases hrefill : r.left ≤ n ∧ r.readable = true
  · obtain ⟨hrl, hrr⟩ := hrefill
    have hridx : r.index < bytes.length := by
      have := hrr
      unfold BigEndianBitReader.readable at this
      simpa [hby] using this
    have hlink8 : 8 * r.index = pos + r.left := hlink hridx
    have hread : r.read 4 = bitsBE bytes (pos + r.left) 32 := by
      rw [readBE_eq bytes wf r hby 4, hlink8]
    have hcachenew : r.cache ||| (r.read 4 <<< (32 - r.left)) =
        bitsBE bytes pos (r.left + 32) * 2 ^ (64 - (r.left + 32)) := by
      rw [hread, Nat.shiftLeft_eq, hca]
      have hdisj : bitsBE bytes pos r.left * 2 ^ (64 - r.left) % 2 ^ (64 - r.left) = 0 :=
        Nat.mul_mod_left _ _
      have hblt32 := bitsBE_lt bytes (pos + r.left) 32
      have hlt : bitsBE bytes (pos + r.left) 32 * 2 ^ (32 - r.left) < 2 ^ (64 - r.left) := by
        have hexp : 64 - r.left = 32 + (32 - r.left) := by omega
        rw [hexp, pow_add]
        exact (Nat.mul_lt_mul_right (Nat.pos_pow_of_pos _ (by omega))).mpr hblt32
      rw [lor_eq_add_of_disjoint (64 - r.left) _ _ hdisj hlt, bitsBE_append]
      have hexp2 : 64 - (r.left + 32) = 32 - r.left := by omega
      have hexp3 : 64 - r.left = 32 + (32 - r.left) := by omega
      rw [hexp2, hexp3, pow_add]
      ring
    rw [if_pos hrl, if_pos hrr]
    have hlink4 : r.index + 4 < bytes.length → 8 * (r.index + 4) = pos + (r.left + 32) := by
      intro h
      omega
    have hover4 : bytes.length ≤ r.index + 4 → 8 * bytes.length ≤ pos + (r.left + 32) := by
      intro h
      omega
    exact hmain ⟨r.bytes, r.index + 4, r.cache ||| (r.read 4 <<< (32 - r.left)), r.left + 32⟩
      hby (show r.left + 32 ≤ 64 by omega) hcachenew hlink4 hover4
      (Or.inl (show n ≤ r.left + 32 by omega))
  · -- no refill
    have hr1 : (if r.left ≤ n then if r.readable then
        ({ r with cache := r.cache ||| (r.read 4 <<< (32 - r.left)),
                  index := r.index + 4, left := r.left + 32 } : BigEndianBitReader)
        else r else r) = r := by
      by_cases h1 : r.left ≤ n
      · have h2 : r.readable = false := by
          cases hrb : r.readable
          · rfl
          · exact absurd ⟨h1, hrb⟩ hrefill
        rw [if_pos h1, h2]
        simp
      · rw [if_neg h1]
    rw [hr1]
    have hcase : n ≤ r.left ∨ 8 * bytes.length ≤ pos + r.left := by
      by_cases h1 : r.left ≤ n
      · right
        have h2 : r.readable = false := by
          cases hrb : r.readable
          · rfl
          · exact absurd ⟨h1, hrb⟩ hrefill
        unfold BigEndianBitReader.readable at h2
        rw [hby] at h2
        simp at h2
        exact hover h2
      · left; omega
    exact hmain r hby hll hca hlink hover hcase

theorem LE_getBits32_spec (bytes : List Nat) (wf : WfBytes bytes) (pos n : Nat)
    (r : LittleEndianBitReader) (inv : LEInv bytes pos r) (hn : n ≤ 25) :
    (r.getBits32 n).1 = bitsLE bytes pos n ∧ LEInv bytes (pos + n) (r.getBits32 n).2 := by
  obtain ⟨hby, hll, hca, hlink, hover⟩ := inv
  by_cases hn0 : n = 0
  · subst hn0
    constructor
    · simp [LittleEndianBitReader.getBits32, bitsLE]
    · exact ⟨hby, hll, hca, by simpa using hlink, by simpa using hover⟩
  have hmask : (if 64 ≤ n then 2 ^ 64 - 1 else (1 <<< n) - 1) = 2 ^ n - 1 := by
    rw [if_neg (by omega), Nat.shiftLeft_eq, Nat.one_mul]
  have hmain : ∀ r1 : LittleEndianBitReader, r1.bytes = bytes → r1.left ≤ 64 →
      r1.cache = bitsLE bytes pos r1.left →
      (r1.index < bytes.length → 8 * r1.index = pos + r1.left) →
      (bytes.length ≤ r1.index → 8 * bytes.length ≤ pos + r1.left) →
      (n ≤ r1.left ∨ 8 * bytes.length ≤ pos + r1.left) →
      (r1.cache &&& (2 ^ n - 1) = bitsLE bytes pos n ∧
       LEInv bytes (pos + n) ⟨r1.bytes, r1.index, r1.cache >>> n, r1.left - n⟩) := by
    intro r1 hby1 hll1 hca1 hlink1 hover1 hcase
    have hBlt := bitsLE_lt bytes pos r1.left
    have hand : r1.cache &&& (2 ^ n - 1) = r1.cache % 2 ^ n :=
      Nat.and_pow_two_sub_one_eq_mod r1.cache n
    rcases hcase with hle | hpast
    · constructor
      · rw [hand, hca1, bitsLE_mod bytes pos r1.left n hle]
      · refine ⟨hby1, by dsimp only; omega, ?_, ?_, ?_⟩
        · show r1.cache >>> n = bitsLE bytes (pos + n) (r1.left - n)
          rw [hca1, Nat.shiftRight_eq_div_pow, bitsLE_div bytes pos r1.left n hle]
        · dsimp only
          intro hlt
          have := hlink1 hlt
          omega
        · dsimp only
          intro hge
          have := hover1 hge
          omega
    · by_cases hle : n ≤ r1.left
      · constructor
        · rw [hand, hca1, bitsLE_mod bytes pos r1.left n hle]
        · refine ⟨hby1, by dsimp only; omega, ?_, ?_, ?_⟩
          · show r1.cache >>> n = bitsLE bytes (pos + n) (r1.left - n)
            rw [hca1, Nat.shiftRight_eq_div_pow, bitsLE_div bytes pos r1.left n hle]
          · dsimp only
            intro hlt
            have := hlink1 hlt
            omega
          · dsimp only
            intro hge
            omega
      · -- the stream past the cache content is exhausted, hence zero
        have hln : r1.left < n := by omega
        have hzero : bitsLE bytes (pos + r1.left) (n - r1.left) = 0 :=
          bitsLE_zero_of_past_end bytes _ _ (by omega)
        have hbitsn : bitsLE bytes pos n = bitsLE bytes pos r1.left := by
          have happ := bitsLE_append bytes pos r1.left (n - r1.left)
          rw [hzero] at happ
          have hsplit : r1.left + (n - r1.left) = n := by omega
          rw [hsplit] at happ
          omega
        constructor
        · rw [hand, hca1, hbitsn]
          exact Nat.mod_eq_of_lt (lt_of_lt_of_le hBlt (Nat.pow_le_pow_right (by omega) (by omega)))
        · refine ⟨hby1, by dsimp only; omega, ?_, ?_, ?_⟩
          · show r1.cache >>> n = bitsLE bytes (pos + n) (r1.left - n)
            have hlz : r1.left - n = 0 := by omega
            rw [hlz, hca1, Nat.shiftRight_eq_div_pow]
            show _ = bitsLE bytes (pos + n) 0
            rw [Nat.div_eq_of_lt (lt_of_lt_of_le hBlt (Nat.pow_le_pow_right (by omega) (by omega)))]
            rfl
          · dsimp only
            intro hlt
            have := hlink1 hlt
            omega
          · dsimp only
            intro hge
            omega
  unfold LittleEndianBitReader.getBits32
  rw [if_neg hn0]
  by_cases hrefill : r.left ≤ n ∧ r.readable = true
  · obtain ⟨hrl, hrr⟩ := hrefill
    have hridx : r.index ≤ bytes.length := by
      have := hrr
      unfold LittleEndianBitReader.readable at this
      simpa [hby] using this
    have hread : r.read 4 = bitsLE bytes (pos + r.left) 32 := by
      rw [readLE_eq bytes wf r hby hridx 4]
      rcases Nat.lt_or_ge r.index bytes.length with hlt | hge
      · rw [hlink hlt]
      · have hidx : r.index = bytes.length := by omega
        have h1 : bitsLE bytes (8 * r.index) 32 = 0 :=
          bitsLE_zero_of_past_end bytes _ _ (by omega)
        have h2 : bitsLE bytes (pos + r.left) 32 = 0 :=
          bitsLE_zero_of_past_end bytes _ _ (hover hge)
        rw [h1, h2]
    have hcachenew : r.cache ||| (r.read 4 <<< r.left) = bitsLE bytes pos (r.left + 32) := by
      rw [hread, Nat.shiftLeft_eq, hca, Nat.lor_comm,
          lor_eq_add_of_disjoint r.left _ _ (Nat.mul_mod_left _ _) (bitsLE_lt bytes pos r.left),
          bitsLE_append]
      ring
    rw [if_pos hrl, if_pos hrr, hmask]
    have hlink4 : r.index + 4 < bytes.length → 8 * (r.index + 4) = pos + (r.left + 32) := by
      intro h
      have := hlink (by omega)
      omega
    have hover4 : bytes.length ≤ r.index + 4 → 8 * bytes.length ≤ pos + (r.left + 32) := by
      intro h
      rcases Nat.lt_or_ge r.index bytes.length with hlt | hge
      · have := hlink hlt
        omega
      · have := hover hge
        omega
    exact hmain ⟨r.bytes, r.index + 4, r.cache ||| (r.read 4 <<< r.left), r.left + 32⟩
      hby (show r.left + 32 ≤ 64 by omega) hcachenew hlink4 hover4
      (Or.inl (show n ≤ r.left + 32 by omega))
  · have hr1 : (if r.left ≤ n then if r.readable then
        ({ r with cache := r.cache ||| (r.read 4 <<< r.left),
                  index := r.index + 4, left := r.left + 32 } : LittleEndianBitReader)
        else r else r) = r := by
      by_cases h1 : r.left ≤ n
      · have h2 : r.readable = false := by
          cases hrb : r.readable
          · rfl
          · exact absurd ⟨h1, hrb⟩ hrefill
        rw [if_pos h1, h2]
        simp
      · rw [if_neg h1]
    rw [hr1, hmask]
    have hcase : n ≤ r.left ∨ 8 * bytes.length ≤ pos + r.left := by
      by_cases h1 : r.left ≤ n
      · right
        have h2 : r.readable = false := by
          cases hrb : r.readable
          · rfl
          · exact absurd ⟨h1, hrb⟩ hrefill
        unfold LittleEndianBitReader.readable at h2
        rw [hby] at h2
        simp at h2
        exact hover (by omega)
      · left; omega
    exact hmain r hby hll hca hlink hover hcase

/-! ### Running the readers over a request list -/

theorem runBE_inv (bytes : List Nat) (wf : WfBytes bytes) :
    ∀ (ws : List Nat) (pos : Nat) (r : BigEndianBitReader),
      (∀ w ∈ ws, w ≤ 25) → BEInv bytes pos r →
      BEInv bytes (pos + ws.sum) (runBE r ws) := by
  intro ws
  induction ws with
  | nil => intro pos r _ inv; simpa using inv
  | cons w ws ih =>
    intro pos r hws inv
    have hw : w ≤ 25 := hws w (List.mem_cons_self _ _)
    have hstep := (BE_getBits32_spec bytes wf pos w r inv hw).2
    have := ih (pos + w) (r.getBits32 w).2 (fun x hx => hws x (List.mem_cons_of_mem _ hx)) hstep
    simp only [runBE, List.sum_cons]
    have harith : pos + (w + ws.sum) = pos + w + ws.sum := by omega
    rw [harith]
    exact this

theorem runLE_inv (bytes : List Nat) (wf : WfBytes bytes) :
    ∀ (ws : List Nat) (pos : Nat) (r : LittleEndianBitReader),
      (∀ w ∈ ws, w ≤ 25) → LEInv bytes pos r →
      LEInv bytes (pos + ws.sum) (runLE r ws) := by
  intro ws
  induction ws with
  | nil => intro pos r _ inv; simpa using inv
  | cons w ws ih =>
    intro pos r hws inv
    have hw : w ≤ 25 := hws w (List.mem_cons_self _ _)
    have hstep := (LE_getBits32_spec bytes wf pos w r inv hw).2
    have := ih (pos + w) (r.getBits32 w).2 (fun x hx => hws x (List.mem_cons_of_mem _ hx)) hstep
    simp only [runLE, List.sum_cons]
    have harith : pos + (w + ws.sum) = pos + w + ws.sum := by omega
    rw [harith]
    exact this

/-! ### The range decoder, from `src/opus/entropy/mod.rs` -/

/-- Rust `usize::ilog2` (floor of the base-2 logarithm), fueled so that it
evaluates by kernel reduction; 64 units of fuel cover every 64-bit value. -/
def ilog2Aux : Nat → Nat → Nat
  | 0, _ => 0
  | fuel+1, n => if n ≤ 1 then 0 else ilog2Aux fuel (n / 2) + 1

def ilog2 (n : Nat) : Nat := ilog2Aux 64 n

theorem ilog2Aux_eq_log2 : ∀ (fuel n : Nat), n < 2 ^ fuel → ilog2Aux fuel n = Nat.log2 n := by
  intro fuel
  induction fuel with
  | zero =>
    intro n hn
    have : n = 0 := by simpa using hn
    subst this
    show (0:Nat) = Nat.log2 0
    rw [Nat.log2]
    simp
  | succ fuel ih =>
    intro n hn
    by_cases h : n ≤ 1
    · have h2 : ¬ 2 ≤ n := by omega
      unfold ilog2Aux
      rw [if_pos h, Nat.log2]
      simp [h2]
    · unfold ilog2Aux
      rw [if_neg h, Nat.log2]
      rw [if_pos (by omega)]
      have hdiv : n / 2 < 2 ^ fuel := by
        have := Nat.pow_succ 2 fuel
        omega
      rw [ih (n / 2) hdiv]

theorem ilog2_eq_log2 (n : Nat) (h : n < 2 ^ 64) : ilog2 n = Nat.log2 n :=
  ilog2Aux_eq_log2 64 n h

structure RangeCodingDecoder where
  forward_reader : BigEndianBitReader
  reverse_reader : LittleEndianBitReader
  bitstream_length : Nat
  current_range : Nat
  coded_value : Nat
  consumed_bits : Nat

namespace RangeCodingDecoder

def SYMBOL_BITS : Nat := 8
def SYMBOL_MAX : Nat := (1 <<< SYMBOL_BITS) - 1
def UNIFORM_THRESHOLD_BITS : Nat := 8
def CODE_MAX_VALUE : Nat := 1 <<< (32 - 1)
def CODE_MIN_NORMALIZATION : Nat := CODE_MAX_VALUE >>> SYMBOL_BITS

/-- One pass of the `ensure_valid_range` while loop. -/
def evrStep (s : RangeCodingDecoder) : RangeCodingDecoder :=
  if s.current_range ≤ CODE_MIN_NORMALIZATION then
    let (bits, fw) := s.forward_reader.getBits32 SYMBOL_BITS
    { s with
      forward_reader := fw
      coded_value := ((s.coded_value <<< SYMBOL_BITS) ||| (bits ^^^ SYMBOL_MAX)) &&&
        (CODE_MAX_VALUE - 1)
      current_range := s.current_range <<< SYMBOL_BITS
      consumed_bits := s.consumed_bits + SYMBOL_BITS }
  else s

/-- `ensure_valid_range`: the source loops while
`current_range <= CODE_MIN_NORMALIZATION`.  Because the range is
multiplied by `2 ^ 8` per pass and is at least `1` at every call site,
the loop runs at most three times (`1 <<< 24 > 2 ^ 23`), so three
unrolled conditional passes are exact. -/
def ensureValidRange (s : RangeCodingDecoder) : RangeCodingDecoder :=
  evrStep (evrStep (evrStep s))

/-- `update_range_and_value` (entropy/mod.rs line 61). -/
def updateRangeAndValue (s : RangeCodingDecoder) (scale low high total : Nat) :
    RangeCodingDecoder :=
  let size := scale * (total - high)
  let s := { s with coded_value := s.coded_value - size }
  let s := { s with current_range :=
    if low ≠ 0 then scale * (high - low) else s.current_range - size }
  ensureValidRange s

/-- `get_scale_symbol` (entropy/mod.rs line 82). -/
def getScaleSymbol (s : RangeCodingDecoder) (total : Nat) : Nat × Nat :=
  let range_scale := s.current_range / total
  (range_scale, total - min (s.coded_value / range_scale + 1) total)

/-- `RangeCodingDecoder::new` (entropy/mod.rs line 95). -/
def new (bytes : List Nat) : RangeCodingDecoder :=
  let forward_reader := BigEndianBitReader.new bytes
  let (b7, forward_reader) := forward_reader.getBits32 7
  ensureValidRange {
    forward_reader := forward_reader
    reverse_reader := LittleEndianBitReader.new bytes
    bitstream_length := bytes.length * 8
    current_range := 128
    coded_value := 127 - b7
    consumed_bits := SYMBOL_BITS + 1 }

/-- `logp` (entropy/mod.rs line 118): dichotomous decode. -/
def logp (s : RangeCodingDecoder) (p : Nat) : Bool × RangeCodingDecoder :=
  let range_scale := s.current_range >>> p
  let (result, s) :=
    if range_scale > s.coded_value then
      (true, { s with current_range := range_scale })
    else
      (false, { s with current_range := s.current_range - range_scale,
                       coded_value := s.coded_value - range_scale })
  (result, ensureValidRange s)

/-- An inverse-CDF table (entropy/mod.rs `ICDFContext`).  Call sites of
this snapshot pass plain arrays whose head is the total, like
`SPREAD_MODEL_DICT = [32, 7, 9, 30, 32]`; the context carries the total
and the distribution separately. -/
structure ICDFContext where
  total : Nat
  dist : List Nat

/-- `icdf` (entropy/mod.rs line 137).  The source finds the first entry
above the symbol index with `position(..).unwrap()`, which panics when
no entry qualifies; `List.findIdx` then returns the length and the
`getD` defaults are never reached for the well-formed tables the
decoder uses. -/
def icdf (s : RangeCodingDecoder) (ctx : ICDFContext) : Nat × RangeCodingDecoder :=
  let (range_scale, symbol_index) := s.getScaleSymbol ctx.total
  let value := ctx.dist.findIdx (fun v => symbol_index < v)
  (value,
   s.updateRangeAndValue range_scale
     (if value > 0 then ctx.dist.getD (value - 1) 0 else 0)
     (ctx.dist.getD value 0) ctx.total)

/-- `tell` (entropy/mod.rs line 155): `usize` subtraction is truncated
`Nat` subtraction (the source would panic on underflow, which reachable
states never produce). -/
def tell (s : RangeCodingDecoder) : Nat :=
  s.consumed_bits - ilog2 s.current_range - 1

/-- The pure part of `tell_frac` (entropy/mod.rs lines 161 to 171): a
function of the current range only.  One loop pass squares the Q15
value, extracts `lastbit = range_q15 >> 16`, folds it into the
accumulator with `log2_range * 2 | lastbit` and shifts by it; the source
runs exactly three passes. -/
def tellFracStep : Nat × Nat → Nat × Nat
  | (log2_range, range_q15) =>
    let range_q15 := (range_q15 * range_q15) >>> 15
    let lastbit := range_q15 >>> 16
    (log2_range * 2 ||| lastbit, range_q15 >>> lastbit)

def tellFracLog (range : Nat) : Nat :=
  let log2_range := ilog2 range - 1
  let range_q15 := range >>> (log2_range - 16)
  (tellFracStep (tellFracStep (tellFracStep (log2_range, range_q15)))).1

/-- `tell_frac` (entropy/mod.rs line 160). -/
def tellFrac (s : RangeCodingDecoder) : Nat :=
  s.consumed_bits * 8 - tellFracLog s.current_range

def len (s : RangeCodingDecoder) : Nat := s.bitstream_length

def available (s : RangeCodingDecoder) : Nat := s.bitstream_length - s.tell

def availableFrac (s : RangeCodingDecoder) : Nat := s.bitstream_length * 8 - s.tellFrac

/-- `rawbits` (entropy/mod.rs line 201): reverse-reader bits, no
probability modelling. -/
def rawbits (s : RangeCodingDecoder) (len : Nat) : Nat × RangeCodingDecoder :=
  let (v, reverse_reader) := s.reverse_reader.getBits32 len
  (v, { s with consumed_bits := s.consumed_bits + len, reverse_reader := reverse_reader })

/-- `uniform` (entropy/mod.rs line 208). -/
def uniform (s : RangeCodingDecoder) (len : Nat) : Nat × RangeCodingDecoder :=
  let bits := ilog2 (len - 1) - 1
  let total :=
    if bits > UNIFORM_THRESHOLD_BITS then
      ((len - 1) >>> (bits - UNIFORM_THRESHOLD_BITS)) + 1
    else len
  let (range_scale, symbol_idx) := s.getScaleSymbol total
  let s := s.updateRangeAndValue range_scale symbol_idx (symbol_idx + 1) total
  if bits > UNIFORM_THRESHOLD_BITS then
    let (raw, s) := s.rawbits (bits - UNIFORM_THRESHOLD_BITS)
    ((symbol_idx <<< (bits - UNIFORM_THRESHOLD_BITS)) ||| raw, s)
  else
    (symbol_idx, s)

/-- The expansion loop of `laplace` (entropy/mod.rs lines 247 to 255),
fueled: `low` grows by at least two per pass and stays below
`center < 2 ^ 15`, so `2 ^ 15` units of fuel are never exhausted. -/
def laplaceLoop (center decay : Nat) :
    Nat → (Int × Nat × Nat) → (Int × Nat × Nat)
  | 0, st => st
  | fuel+1, (value, symbol, low) =>
    if symbol > 1 ∧ center ≥ low + 2 * symbol then
      let value := value + 1
      let symbol := symbol * 2
      let low := low + symbol
      let symbol := ((symbol - 2) * decay) >>> 15 + 1
      laplaceLoop center decay fuel (value, symbol, low)
    else (value, symbol, low)

/-- `laplace` (entropy/mod.rs line 232).  The `decay` argument has type
`isize` in the source but every call site passes a nonnegative table
value, so it is modelled as `Nat`. -/
def laplace (s : RangeCodingDecoder) (symbol : Nat) (decay : Nat) :
    Int × RangeCodingDecoder :=
  let range_scale := s.current_range >>> 15
  let center := (1 <<< 15) - min (s.coded_value / range_scale + 1) (1 <<< 15)
  let (value, symbol, low) :=
    if center ≥ symbol then
      let value : Int := 1
      let low := symbol
      let symbol := 1 + (((32768 - 32 - symbol) * (16384 - decay)) >>> 15)
      let (value, symbol, low) := laplaceLoop center decay 32768 (value, symbol, low)
      let (value, low) :=
        if symbol ≤ 1 then
          let dist := (center - low) >>> 1
          (value + (dist : Int), low + 2 * dist)
        else (value, low)
      if center < low + symbol then
        (value * (-1), symbol, low)
      else
        (value, symbol, low + symbol)
    else ((0 : Int), symbol, 0)
  (value, s.updateRangeAndValue range_scale low (min 32768 (low + symbol)) 32768)

/-- `to_end` (entropy/mod.rs line 342): drain the remaining bits. -/
def toEnd (s : RangeCodingDecoder) : RangeCodingDecoder :=
  { s with consumed_bits := s.consumed_bits + (s.bitstream_length - s.tell) }

end RangeCodingDecoder

/- Sanity check reproducing the head of the `decode_laplace` unit test of
`entropy/mod.rs`. -/
example :
    let buf : List Nat := [255, 201, 249, 161, 77, 172, 239, 17, 161, 157, 220, 130,
      101, 192, 199, 41, 223, 112, 126, 194, 59, 131, 246, 99, 239, 250, 102, 73]
    let s := RangeCodingDecoder.new buf
    let (v1, s) := s.laplace 32497 60
    let (v2, s) := s.laplace 32505 58
    let (v3, s) := s.laplace 32512 56
    let (v4, s) := s.laplace 32185 139
    let (v5, s) := s.laplace 32425 78
    let (v6, _) := s.laplace 32134 152
    [v1, v2, v3, v4, v5, v6] = [3, 0, -1, 0, 1, 3] := by decide

/-! ### The TOC parser, from `src/opus/toc.rs` -/

inductive EncodeMode where
  | CELT
  | SILK
  | Hybrid
deriving DecidableEq

inductive Bandwidth where
  | Narrow
  | Medium
  | Wide
  | SuperWide
  | Full
deriving DecidableEq

/-- The discriminant values of the source enum (`Narrow = 8000`, ...). -/
def Bandwidth.hz : Bandwidth → Nat
  | .Narrow => 8000
  | .Medium => 12000
  | .Wide => 16000
  | .SuperWide => 24000
  | .Full => 48000

inductive FrameCode where
  | Single
  | DoubleCBR
  | DoubleVBR
  | Multiple
deriving DecidableEq

inductive FrameDuration where
  | VeryShort
  | Short
  | Medium
  | Standard
  | Long
  | VeryLong
deriving DecidableEq

/-- The discriminant values of the source enum: samples at 48 kHz
(`VeryShort = 120`, ..., `VeryLong = 2880`). -/
def FrameDuration.samples : FrameDuration → Nat
  | .VeryShort => 120
  | .Short => 240
  | .Medium => 480
  | .Standard => 960
  | .Long => 1920
  | .VeryLong => 2880

/-- Modelled from the spec: the `Channels` enum (`Mono = 1`,
`Stereo = 2`).  It is referenced by `celt/mod.rs` and
`celt/bit_alloc.rs` (`toc::Channels`, `dec.channels as usize`) but its
declaration is missing from the source snapshot of `toc.rs`. -/
inductive Channels where
  | Mono
  | Stereo
deriving DecidableEq

def Channels.toNat : Channels → Nat
  | .Mono => 1
  | .Stereo => 2

structure TableOfContents where
  mode : EncodeMode
  bandwidth : Bandwidth
  duration : FrameDuration
  channels : Channels
  code : FrameCode
deriving DecidableEq

/-- `TableOfContents::decode` (toc.rs line 85): the frame code from bits
0 and 1 and the 32-entry configuration table from the top five bits.
The `channels` field is modelled from the spec (stereo flag in bit 2;
its decoding is absent from the snapshot of `toc.rs` although the CELT
code consumes `toc.channels`). -/
def TableOfContents.decode (toc : Nat) : TableOfContents :=
  let code :=
    match toc &&& 0b00000011 with
    | 0b00 => FrameCode.Single
    | 0b01 => FrameCode.DoubleCBR
    | 0b10 => FrameCode.DoubleVBR
    | _ => FrameCode.Multiple
  let channels := if toc &&& 0b100 ≠ 0 then Channels.Stereo else Channels.Mono
  match (toc >>> 3) &&& 0b00011111 with
  | 0 => ⟨.SILK, .Narrow, .Medium, channels, code⟩
  | 1 => ⟨.SILK, .Narrow, .Standard, channels, code⟩
  | 2 => ⟨.SILK, .Narrow, .Long, channels, code⟩
  | 3 => ⟨.SILK, .Narrow, .VeryLong, channels, code⟩
  | 4 => ⟨.SILK, .Medium, .Medium, channels, code⟩
  | 5 => ⟨.SILK, .Medium, .Standard, channels, code⟩
  | 6 => ⟨.SILK, .Medium, .Long, channels, code⟩
  | 7 => ⟨.SILK, .Medium, .VeryLong, channels, code⟩
  | 8 => ⟨.SILK, .Wide, .Medium, channels, code⟩
  | 9 => ⟨.SILK, .Wide, .Standard, channels, code⟩
  | 10 => ⟨.SILK, .Wide, .Long, channels, code⟩
  | 11 => ⟨.SILK, .Wide, .VeryLong, channels, code⟩
  | 12 => ⟨.Hybrid, .SuperWide, .Medium, channels, code⟩
  | 13 => ⟨.Hybrid, .SuperWide, .Standard, channels, code⟩
  | 14 => ⟨.Hybrid, .Full, .Medium, channels, code⟩
  | 15 => ⟨.Hybrid, .Full, .Standard, channels, code⟩
  | 16 => ⟨.CELT, .Narrow, .VeryShort, channels, code⟩
  | 17 => ⟨.CELT, .Narrow, .Short, channels, code⟩
  | 18 => ⟨.CELT, .Narrow, .Medium, channels, code⟩
  | 19 => ⟨.CELT, .Narrow, .Standard, channels, code⟩
  | 20 => ⟨.CELT, .Wide, .VeryShort, channels, code⟩
  | 21 => ⟨.CELT, .Wide, .Short, channels, code⟩
  | 22 => ⟨.CELT, .Wide, .Medium, channels, code⟩
  | 23 => ⟨.CELT, .Wide, .Standard, channels, code⟩
  | 24 => ⟨.CELT, .SuperWide, .VeryShort, channels, code⟩
  | 25 => ⟨.CELT, .SuperWide, .Short, channels, code⟩
  | 26 => ⟨.CELT, .SuperWide, .Medium, channels, code⟩
  | 27 => ⟨.CELT, .SuperWide, .Standard, channels, code⟩
  | 28 => ⟨.CELT, .Full, .VeryShort, channels, code⟩
  | 29 => ⟨.CELT, .Full, .Short, channels, code⟩
  | 30 => ⟨.CELT, .Full, .Medium, channels, code⟩
  | _ => ⟨.CELT, .Full, .Standard, channels, code⟩

/-! ### The CELT frame controller, from `src/opus/celt/` -/

def MAX_BANDS : Nat := 21
def SHORT_BLOCKSIZE : Nat := 120

/-- `CeltBandwidthBand::band` (celt/mod.rs line 31). -/
def Bandwidth.band : Bandwidth → Nat
  | .Narrow => 13
  | .Medium => 17
  | .Wide => 17
  | .SuperWide => 19
  | .Full => 21

inductive Spread where
  | Light
  | Normal
  | Aggressive
deriving DecidableEq

/- the constant tables of `celt/bit_alloc.rs` -/

def VECTORS : Int := 11

/-- `SPREAD_MODEL_DICT = [32, 7, 9, 30, 32]`: head is the ICDF total. -/
def SPREAD_MODEL_DICT : RangeCodingDecoder.ICDFContext := ⟨32, [7, 9, 30, 32]⟩

def STATIC_CAPS : List (List (List Nat)) := [
  [[224, 224, 224, 224, 224, 224, 224, 224, 160, 160, 160, 160, 185, 185, 185, 178, 178,
    168, 134, 61, 37],
   [224, 224, 224, 224, 224, 224, 224, 224, 240, 240, 240, 240, 207, 207, 207, 198, 198,
    183, 144, 66, 40]],
  [[160, 160, 160, 160, 160, 160, 160, 160, 185, 185, 185, 185, 193, 193, 193, 183, 183,
    172, 138, 64, 38],
   [240, 240, 240, 240, 240, 240, 240, 240, 207, 207, 207, 207, 204, 204, 204, 193, 193,
    180, 143, 66, 40]],
  [[185, 185, 185, 185, 185, 185, 185, 185, 193, 193, 193, 193, 193, 193, 193, 183, 183,
    172, 138, 65, 39],
   [207, 207, 207, 207, 207, 207, 207, 207, 204, 204, 204, 204, 201, 201, 201, 188, 188,
    176, 141, 66, 40]],
  [[193, 193, 193, 193, 193, 193, 193, 193, 193, 193, 193, 193, 194, 194, 194, 184, 184,
    173, 139, 65, 39],
   [204, 204, 204, 204, 204, 204, 204, 204, 201, 201, 201, 201, 198, 198, 198, 187, 187,
    175, 140, 66, 40]]]

def FREQ_RANGE : List Nat :=
  [1, 1, 1, 1, 1, 1, 1, 1, 2, 2, 2, 2, 4, 4, 4, 6, 6, 8, 12, 18, 22]

def ALLOC_TRIM_MODEL : RangeCodingDecoder.ICDFContext :=
  ⟨128, [2, 4, 9, 19, 41, 87, 109, 119, 124, 126, 128]⟩

def LOG2_FRAC : List Nat :=
  [0, 8, 13, 16, 19, 21, 23, 24, 26, 27, 28, 29, 30, 31, 32, 32, 33, 34, 34, 35, 36, 36,
   37, 37]

def STATIC_ALLOC : List (List Nat) := [
  [0, 0, 0, 0, 0, 0, 0, 0, 0, 0, 0, 0, 0, 0, 0, 0, 0, 0, 0, 0, 0],
  [90, 80, 75, 69, 63, 56, 49, 40, 34, 29, 20, 18, 10, 0, 0, 0, 0, 0, 0, 0, 0],
  [110, 100, 90, 84, 78, 71, 65, 58, 51, 45, 39, 32, 26, 20, 12, 0, 0, 0, 0, 0, 0],
  [118, 110, 103, 93, 86, 80, 75, 70, 65, 59, 53, 47, 40, 31, 23, 15, 4, 0, 0, 0, 0],
  [126, 119, 112, 104, 95, 89, 83, 78, 72, 66, 60, 54, 47, 39, 32, 25, 17, 12, 1, 0, 0],
  [134, 127, 120, 114, 103, 97, 91, 85, 78, 72, 66, 60, 54, 47, 41, 35, 29, 23, 16, 10, 1],
  [144, 137, 130, 124, 113, 107, 101, 95, 88, 82, 76, 70, 64, 57, 51, 45, 39, 33, 26, 15, 1],
  [152, 145, 138, 132, 123, 117, 111, 105, 98, 92, 86, 80, 74, 67, 61, 55, 49, 43, 36, 20, 1],
  [162, 155, 148, 142, 133, 127, 121, 115, 108, 102, 96, 90, 84, 77, 71, 65, 59, 53, 46, 30, 1],
  [172, 165, 158, 152, 143, 137, 131, 125, 118, 112, 106, 100, 94, 87, 81, 75, 69, 63, 56,
   45, 20],
  [200, 200, 200, 200, 200, 200, 200, 200, 198, 193, 188, 183, 178, 173, 168, 163, 158, 153,
   148, 129, 104]]

/-- `TAPSET_MODEL_DICT` (referenced from `celt/coarse_energy.rs` and the
post filter): the pdf is two, one, one over four. -/
def TAPSET_MODEL_DICT : RangeCodingDecoder.ICDFContext := ⟨4, [2, 3, 4]⟩

def COARSE_ENERGY_DICT : List (List (List Nat)) := [
  [[72, 127, 65, 129, 66, 128, 65, 128, 64, 128, 62, 128, 64, 128, 64, 128, 92, 78, 92, 79,
    92, 78, 90, 79, 116, 41, 115, 40, 114, 40, 132, 26, 132, 26, 145, 17, 161, 12, 176, 10,
    177, 11],
   [24, 179, 48, 138, 54, 135, 54, 132, 53, 134, 56, 133, 55, 132, 55, 132, 61, 114, 70, 96,
    74, 88, 75, 88, 87, 74, 89, 66, 91, 67, 100, 59, 108, 50, 120, 40, 122, 37, 97, 43, 78,
    50]],
  [[83, 78, 84, 81, 88, 75, 86, 74, 87, 71, 90, 73, 93, 74, 93, 74, 109, 40, 114, 36, 117,
    34, 117, 34, 143, 17, 145, 18, 146, 19, 162, 12, 165, 10, 178, 7, 189, 6, 190, 8, 177,
    9],
   [23, 178, 54, 115, 63, 102, 66, 98, 69, 99, 74, 89, 71, 91, 73, 91, 78, 89, 86, 80, 92,
    66, 93, 64, 102, 59, 103, 60, 104, 60, 117, 52, 123, 44, 138, 35, 133, 31, 97, 38, 77,
    45]],
  [[61, 90, 93, 60, 105, 42, 107, 41, 110, 45, 116, 38, 113, 38, 112, 38, 124, 26, 132, 27,
    136, 19, 140, 20, 155, 14, 159, 16, 158, 18, 170, 13, 177, 10, 187, 8, 192, 6, 175, 9,
    159, 10],
   [21, 178, 59, 110, 71, 86, 75, 85, 84, 83, 91, 66, 88, 73, 87, 72, 92, 75, 98, 72, 105,
    58, 107, 54, 115, 52, 114, 55, 112, 56, 129, 51, 132, 40, 150, 33, 140, 29, 98, 35, 77,
    42]],
  [[42, 121, 96, 66, 108, 43, 111, 40, 117, 44, 123, 32, 120, 36, 119, 33, 127, 33, 134, 34,
    139, 21, 147, 23, 152, 20, 158, 25, 154, 26, 166, 21, 173, 16, 184, 13, 184, 10, 150,
    13, 139, 15],
   [22, 178, 63, 114, 74, 82, 84, 83, 92, 82, 103, 62, 96, 72, 96, 67, 101, 73, 107, 72,
    113, 55, 118, 52, 125, 52, 118, 52, 117, 55, 135, 49, 137, 39, 157, 32, 145, 29, 97,
    33, 77, 40]]]

/-- `TF_SELECT[size][transient][select_bit][transform_flag]`
(celt/time_frequency_change.rs). -/
def TF_SELECT : List (List (List (List Int))) := [
  [[[0, -1], [0, -1]], [[0, -1], [0, -1]]],
  [[[0, -1], [0, -2]], [[1, 0], [1, -1]]],
  [[[0, -2], [0, -3]], [[2, 0], [1, -1]]],
  [[[0, -2], [0, -3]], [[3, 0], [1, -1]]]]

/-- The decoded CELT frame parameters (celt/mod.rs `CeltFrameDecoder`).
The floating-point state (`energy`, post-filter gains) is omitted: it is
write-only with respect to the symbol schedule, and floating point has
no place in the embedding.  `alloc_trim` is `Int` because
`bit_alloc.rs` assigns it `as i32`. -/
structure CeltFrameDecoder where
  band_start : Nat
  band_end : Nat
  size : Nat
  silence : Bool
  transient : Bool
  channels : Channels
  time_frequency_change : List Int
  spread : Option Spread
  caps : List Int
  alloc_trim : Int
  anticollapse_needed : Nat
deriving DecidableEq

def CeltFrameDecoder.default : CeltFrameDecoder :=
  ⟨0, 0, 0, false, false, .Mono, List.replicate MAX_BANDS 0, none,
   List.replicate MAX_BANDS 0, 0, 0⟩

inductive CeltFrameDecodeError where
  | BandsOverflow
deriving DecidableEq

/-- The post-filter parameters (celt/filter.rs `PostFilter`), without the
floating-point gains; `gain_bits` is the raw three-bit gain index. -/
structure PostFilter where
  period_new : Nat
  gain_bits : Nat
  tapset : Nat
deriving DecidableEq

/-- `PostFilter::decode` (celt/filter.rs line 31). -/
def PostFilter.decode (rd : RangeCodingDecoder) : PostFilter × RangeCodingDecoder :=
  let (octave, rd) := rd.uniform 6
  let (raw, rd) := rd.rawbits (4 + octave)
  let period := (16 <<< octave) + raw - 1
  let (gain_bits, rd) := rd.rawbits 3
  let (tapset, rd) :=
    if rd.available ≥ 2 then rd.icdf TAPSET_MODEL_DICT else (0, rd)
  (⟨max period 15, gain_bits, tapset⟩, rd)

/-- One band-and-channel step of `CoarseEnergy::decode`
(celt/coarse_energy.rs lines 108 to 125).  The decoded value feeds only
the `f32` energy recursion, which is omitted; the reads themselves are
kept because they advance the range decoder.  The `u8` shifts
`model[idx] << 7` and `model[idx + 1] << 6` wrap modulo 256. -/
def coarseEnergyStep (model : List Nat) (band : Nat) (rd : RangeCodingDecoder) :
    RangeCodingDecoder :=
  let available := rd.available
  if rd.available ≥ 15 then
    let idx := (min band 20) <<< 1
    (rd.laplace (((model.getD idx 0) <<< 7) % 256) (((model.getD (idx + 1) 0) <<< 6) % 256)).2
  else if available ≥ 2 then
    (rd.icdf TAPSET_MODEL_DICT).2
  else if available ≥ 1 then
    (rd.logp 1).2
  else rd

/-- One band of `CoarseEnergy::decode`: the per-channel inner loop
(celt/coarse_energy.rs lines 99 to 121). -/
def coarseChannelFold (dec : CeltFrameDecoder) (model : List Nat)
    (rd : RangeCodingDecoder) (band : Nat) : RangeCodingDecoder :=
  (List.range dec.channels.toNat).foldl
    (fun rd _channel =>
      if dec.band_start ≤ band ∧ band < dec.band_end then
        coarseEnergyStep model band rd
      else rd)
    rd

/-- `CoarseEnergy::decode` (celt/coarse_energy.rs line 81): the intra
flag, then one read per coded band and channel. -/
def CoarseEnergy.decode (dec : CeltFrameDecoder) (rd : RangeCodingDecoder) :
    RangeCodingDecoder :=
  let (intra, rd) :=
    if rd.available > 3 then rd.logp 3 else (false, rd)
  let model := (COARSE_ENERGY_DICT.getD dec.size []).getD (if intra then 1 else 0) []
  (List.range MAX_BANDS).foldl (coarseChannelFold dec model) rd

/-- One band of the per-band loop of `TimeFrequencyChange::decode`
(celt/time_frequency_change.rs lines 47 to 61); `extra` is the one
extra bit withheld while the select bit is still pending. -/
def tfStep (dec : CeltFrameDecoder) (extra : Nat)
    (st : RangeCodingDecoder × Nat × Bool × Bool × List Int) (i : Nat) :
    RangeCodingDecoder × Nat × Bool × Bool × List Int :=
  let (rd, bits, diff, change, tf) := st
  let (rd, diff, change) :=
    if rd.available > bits + extra then
      let (b, rd) := rd.logp bits
      let diff := xor diff b
      (rd, diff, change || diff)
    else (rd, diff, change)
  let tf := tf.set i (if diff then 1 else 0)
  (rd, if dec.transient then 4 else 5, diff, change, tf)

/-- `TimeFrequencyChange::decode` (celt/time_frequency_change.rs line 38). -/
def TimeFrequencyChange.decode (dec : CeltFrameDecoder) (rd : RangeCodingDecoder) :
    List Int × RangeCodingDecoder :=
  let bits := if dec.transient then 2 else 4
  let select_bit := dec.size ≠ 0 ∧ rd.available > bits
  let (rd, _, diff, change, tf) :=
    (List.range' dec.band_start (dec.band_end - dec.band_start)).foldl
      (tfStep dec (if select_bit then 1 else 0))
      (rd, bits, false, false, dec.time_frequency_change)
  let ts := (TF_SELECT.getD dec.size []).getD (if dec.transient then 1 else 0) []
  let chIdx := if change then 1 else 0
  let (select, rd) :=
    if select_bit ∧ (ts.getD 0 []).getD chIdx 0 ≠ (ts.getD 1 []).getD chIdx 0 then
      let (b, rd) := rd.logp 1
      ((if b then 1 else 0), rd)
    else (0, rd)
  let tf := (List.range' dec.band_start (dec.band_end - dec.band_start)).foldl
    (fun tf i =>
      tf.set i ((ts.getD select []).getD (tf.getD i 0).toNat 0))
    tf
  (tf, rd)

/-- The locals of `BitAlloc::decode` (celt/bit_alloc.rs) that the claims
observe, returned alongside the mutated frame state. -/
structure BitAllocTrace where
  boost : List Int
  dynalloc_final : Int
  boost_tbits : Int
  budget_at_anticollapse : Int
  skip_bit : Int
  intensitystereo_bit : Int
  dualstereo_bit : Int
  tbits_final : Int
  bisect_low : Int
deriving DecidableEq

/-- The inner while loop of the band-boost pass (celt/bit_alloc.rs lines
152 to 162), fueled: every accepted boost deducts `quanta ≥ 8`
eighth-bits from the budget, so `rd.len + 2` passes are never
exhausted.  State: decoder, `boost[i]`, `tbits_8ths`, `band_dynalloc`;
`<< 3` on `i32` is multiplication by eight. -/
def boostLoop (quanta : Nat) (cap : Int) :
    Nat → RangeCodingDecoder × Int × Int × Int → RangeCodingDecoder × Int × Int × Int
  | 0, st => st
  | fuel+1, (rd, boostI, tbits, band_dynalloc) =>
    if (rd.tellFrac : Int) + band_dynalloc * 8 < tbits ∧ boostI < cap then
      let (b, rd) := rd.logp band_dynalloc.toNat
      if b then
        boostLoop quanta cap fuel (rd, boostI + (quanta : Int), tbits - (quanta : Int), 1)
      else (rd, boostI, tbits, band_dynalloc)
    else (rd, boostI, tbits, band_dynalloc)

/-- One band of the band-boost pass (celt/bit_alloc.rs lines 143 to
166).  The quantum `it` is computed in `u8`, so both shifts and the
`<< 3` wrap modulo 256.  Note the acceptance test on `boost[1]`, not
`boost[i]`. -/
def boostStep (dec : CeltFrameDecoder) (caps : List Int)
    (st : RangeCodingDecoder × List Int × Int × Int) (i : Nat) :
    RangeCodingDecoder × List Int × Int × Int :=
  let (rd, boost, tbits, dynalloc) := st
  let it := ((((FREQ_RANGE.getD i 0) <<< (dec.channels.toNat - 1)) % 256
      <<< dec.size) % 256)
  let quanta := min ((it <<< 3) % 256) (max it (6 <<< 3))
  let (rd, boostI, tbits, _) :=
    boostLoop quanta (caps.getD i 0) (rd.len + 2) (rd, boost.getD i 0, tbits, dynalloc)
  let boost := boost.set i boostI
  let dynalloc := if boost.getD 1 0 > 0 then max 2 (dynalloc - 1) else dynalloc
  (rd, boost, tbits, dynalloc)

/-- The band-boost pass (celt/bit_alloc.rs lines 141 to 167). -/
def bandBoostPass (dec : CeltFrameDecoder) (caps : List Int) (rd0 : RangeCodingDecoder) :
    RangeCodingDecoder × List Int × Int × Int :=
  (List.range' dec.band_start (dec.band_end - dec.band_start)).foldl
    (boostStep dec caps)
    (rd0, List.replicate MAX_BANDS (0 : Int), ((rd0.len : Int)) * 8, 6)

/-- The per-center total of the bisection (celt/bit_alloc.rs lines 240
to 258): a reverse fold over the coded bands with the `done` flag. -/
def bisectTotal (dec : CeltFrameDecoder) (trim_offset threshold caps boost : List Int)
    (center : Int) : Int :=
  ((List.range' dec.band_start (dec.band_end - dec.band_start)).reverse.foldl
    (fun (st : Bool × Int) i =>
      let (done, total) := st
      let bandbits : Int :=
        ((((FREQ_RANGE.getD i 0 * (STATIC_ALLOC.getD center.toNat []).getD i 0)
          <<< (dec.channels.toNat - 1) <<< dec.size) >>> 2 : Nat) : Int)
      let bandbits := if bandbits > 0 then max 0 (bandbits + trim_offset.getD i 0)
        else bandbits
      let bandbits := bandbits + boost.getD i 0
      if bandbits ≥ threshold.getD i 0 ∨ done then
        (true, total + min bandbits (caps.getD i 0))
      else if bandbits ≥ (dec.channels.toNat : Int) * 8 then
        (done, total + (dec.channels.toNat : Int) * 8)
      else (done, total))
    (false, 0)).2

/-- The bisection while loop (celt/bit_alloc.rs lines 235 to 265),
fueled: the interval `[low, high] ⊆ [1, 10]` shrinks strictly, so
sixteen passes are never exhausted. -/
def bisectLoop (dec : CeltFrameDecoder) (trim_offset threshold caps boost : List Int)
    (tbits : Int) : Nat → Int × Int → Int × Int
  | 0, st => st
  | fuel+1, (low, high) =>
    if low ≤ high then
      let center := (low + high) / 2
      if bisectTotal dec trim_offset threshold caps boost center > tbits then
        bisectLoop dec trim_offset threshold caps boost tbits fuel (low, center - 1)
      else
        bisectLoop dec trim_offset threshold caps boost tbits fuel (center + 1, high)
    else (low, high)

/-- The static allocation caps (celt/bit_alloc.rs lines 133 to 139); the
`u8` table arithmetic wraps modulo 256 (release semantics; the `+ 64`
would be an overflow panic in a debug build). -/
def bitAllocCaps (dec : CeltFrameDecoder) : List Int :=
  (List.range MAX_BANDS).map (fun i =>
    let bits := (((((STATIC_CAPS.getD dec.size []).getD (dec.channels.toNat - 1) []).getD i 0
        + 64) % 256) * FREQ_RANGE.getD i 0) % 256
    (((bits <<< (dec.channels.toNat - 1) <<< dec.size) >>> 2 : Nat) : Int))

/-- `BitAlloc::decode` (celt/bit_alloc.rs line 119).  `i32` quantities
are `Int`; the arithmetic right shift `>> 6` on a possibly negative
`i32` is floor division by 64. -/
def BitAlloc.decode (dec : CeltFrameDecoder) (rd : RangeCodingDecoder) :
    CeltFrameDecoder × BitAllocTrace × RangeCodingDecoder :=
  -- spread
  let (spread, rd) :=
    if rd.available > 4 then
      let (v, rd) := rd.icdf SPREAD_MODEL_DICT
      (match v with
       | 0 => none
       | 1 => some Spread.Light
       | 2 => some Spread.Normal
       | _ => some Spread.Aggressive, rd)
    else (some Spread.Normal, rd)
  let dec := { dec with spread := spread }
  -- static allocation caps
  let caps : List Int := bitAllocCaps dec
  let dec := { dec with caps := caps }
  -- band boosts
  let (rd, boost, boost_tbits, dynalloc) := bandBoostPass dec caps rd
  -- allocation trim
  let (alloc_trim, rd) :=
    if (rd.tellFrac : Int) + 6 * 8 ≤ boost_tbits then
      let (v, rd) := rd.icdf ALLOC_TRIM_MODEL
      ((v : Int), rd)
    else ((5 : Int), rd)
  let dec := { dec with alloc_trim := alloc_trim }
  -- anti-collapse bit reservation
  let tbits : Int := (rd.len : Int) * 8 - (rd.tellFrac : Int) - 1
  let budget_at_anticollapse := tbits
  let anticollapse_needed : Nat :=
    if dec.transient && decide (2 ≤ dec.size) &&
        decide ((((dec.size : Int) + 2) * 8 : Int) ≤ tbits) then 8 else 0
  let dec := { dec with anticollapse_needed := anticollapse_needed }
  -- the source assigns, not deducts: `tbits_8ths = dec.anticollapse_needed;`
  let tbits : Int := (anticollapse_needed : Int)
  -- band skip bit reservation
  let skip_bit : Int := if tbits ≥ 8 then 8 else 0
  let tbits := tbits - skip_bit
  -- intensity / dual stereo bit reservation
  let (intensitystereo_bit, dualstereo_bit, tbits) :=
    if dec.channels = Channels.Stereo then
      let isb : Int := (LOG2_FRAC.getD (dec.band_end - dec.band_start) 0 : Int)
      if isb ≤ tbits then
        let tbits := tbits - isb
        if tbits ≥ 8 then (isb, (8 : Int), tbits - 8) else (isb, (0 : Int), tbits)
      else ((0 : Int), (0 : Int), tbits)
    else ((0 : Int), (0 : Int), tbits)
  -- trim offsets and skip thresholds
  let trim : Int := alloc_trim - 5 - (dec.size : Int)
  let threshold : List Int := (List.range MAX_BANDS).map (fun i =>
    if dec.band_start ≤ i ∧ i < dec.band_end then
      max ((((3 * FREQ_RANGE.getD i 0) <<< (dec.size + 3) >>> 4 : Nat) : Int))
        ((dec.channels.toNat : Int) * 8)
    else 0)
  let trim_offset : List Int := (List.range MAX_BANDS).map (fun i =>
    if dec.band_start ≤ i ∧ i < dec.band_end then
      let band : Nat := FREQ_RANGE.getD i 0 * (dec.band_end - i - 1)
      let scale : Nat := (dec.size + 3) + dec.channels.toNat - 1
      let t := Int.fdiv (trim * ((band <<< scale : Nat) : Int)) 64
      if ((FREQ_RANGE.getD i 0) <<< dec.size) % 256 = 1 then
        t - (dec.channels.toNat : Int) * 8
      else t
    else 0)
  -- bisection over the static allocation table
  let (low, _) := bisectLoop dec trim_offset threshold caps boost tbits 16 (1, VECTORS - 1)
  (dec,
   { boost := boost
     dynalloc_final := dynalloc
     boost_tbits := boost_tbits
     budget_at_anticollapse := budget_at_anticollapse
     skip_bit := skip_bit
     intensitystereo_bit := intensitystereo_bit
     dualstereo_bit := dualstereo_bit
     tbits_final := tbits
     bisect_low := low },
   rd)

/-- The post-filter block of `CeltFrameDecoder::decode` (celt/mod.rs
lines 112 to 121). -/
def celtPostfilterStage (dec : CeltFrameDecoder) (rd : RangeCodingDecoder) :
    RangeCodingDecoder :=
  if dec.band_start = 0 ∧ rd.available ≥ 16 then
    let (has_postfilter, rd) := rd.logp 1
    if has_postfilter then (PostFilter.decode rd).2 else rd
  else rd

/-- The transient-flag read of `CeltFrameDecoder::decode` (celt/mod.rs
lines 123 to 127). -/
def celtTransientStage (dec : CeltFrameDecoder) (rd : RangeCodingDecoder) :
    Bool × RangeCodingDecoder :=
  if dec.size > 0 ∧ rd.available ≥ 3 then rd.logp 3 else (false, rd)

/-- The body of `CeltFrameDecoder::decode` after the silence handling
(celt/mod.rs lines 112 to 152): post-filter, transient, coarse energy,
TF change and bit allocation, in source order. -/
def celtBody (dec : CeltFrameDecoder) (rd : RangeCodingDecoder) :
    CeltFrameDecoder × BitAllocTrace × RangeCodingDecoder :=
  let rd := celtPostfilterStage dec rd
  let tp := celtTransientStage dec rd
  let dec := { dec with transient := tp.1 }
  let rd := CoarseEnergy.decode dec tp.2
  let tfp := TimeFrequencyChange.decode dec rd
  let dec := { dec with time_frequency_change := tfp.1 }
  let ba := BitAlloc.decode dec tfp.2
  (ba.1, ba.2.1, ba.2.2)

/-- `CeltFrameDecoder::decode` (celt/mod.rs line 72).  The dead locals
(`block`, `blocks`, `block_size`) and the `f32` energy folding are
omitted; every symbol read is kept in order. -/
def CeltFrameDecoder.decode (toc : TableOfContents) (rd : RangeCodingDecoder) :
    Except CeltFrameDecodeError (CeltFrameDecoder × BitAllocTrace × RangeCodingDecoder) :=
  let dec := CeltFrameDecoder.default
  let dec := { dec with channels := toc.channels }
  let dec := { dec with
    band_start := if toc.mode = EncodeMode.Hybrid then 17 else 0
    band_end := toc.bandwidth.band }
  if dec.band_end > MAX_BANDS then
    Except.error CeltFrameDecodeError.BandsOverflow
  else
    let dec := { dec with size := ilog2 (toc.duration.samples / SHORT_BLOCKSIZE) }
    let sp := if rd.available > 0 then rd.logp 15 else (true, rd)
    let dec := { dec with silence := sp.1 }
    let rd := if dec.silence then sp.2.toEnd else sp.2
    Except.ok (celtBody dec rd)

/-! ### The packet demuxer, from `src/opus/mod.rs` -/

def MAX_FRAME_LEN : Nat := 1275
def MAX_FRAMES : Nat := 48

/-- The source `OpusFrame` carries no fields. -/
structure OpusFrame where
deriving DecidableEq

inductive OpusFrameDecoderError where
  | Celt (e : CeltFrameDecodeError)
deriving DecidableEq

inductive OpusPacketDecodeError where
  | InvalidData
  | FramesOverflow
  | FrameDecodeError (e : OpusFrameDecoderError)
deriving DecidableEq

/-- `OpusFrame::deocde` (opus/mod.rs line 26; the source spells it
`deocde`).  `none` models the two `todo!()` panics. -/
def OpusFrame.deocde (toc : TableOfContents) (bytes : List Nat) :
    Option (Except OpusFrameDecoderError OpusFrame) :=
  let range_dec := RangeCodingDecoder.new bytes
  let consumed := range_dec.tell
  let (has_redundancy, _range_dec) :=
    if toc.mode = EncodeMode.Hybrid ∧ consumed + 37 ≤ bytes.length * 8 then
      range_dec.logp 12
    else if toc.mode = EncodeMode.SILK ∧ consumed + 17 ≤ bytes.length * 8 then
      (true, range_dec)
    else
      (false, range_dec)
  if has_redundancy then none
  else if toc.mode = EncodeMode.CELT then some (Except.ok ⟨⟩)
  else none

/-- `read_variable_length` (opus/mod.rs line 228), consuming from the
head of the buffer; `none` models `get_u8` panicking on an empty
buffer. -/
def read_variable_length (bytes : List Nat) : Option (Nat × List Nat) :=
  match bytes with
  | [] => none
  | b :: rest =>
    if b ≥ 252 then
      match rest with
      | [] => none
      | b2 :: rest2 => some (b + 4 * b2, rest2)
    else some (b, rest)

/-- The padding loop of the `Multiple` arm (opus/mod.rs lines 152 to
164), fueled by the buffer length: each pass consumes one byte. -/
def paddingLoop :
    Nat → Nat → List Nat → Option (Except OpusPacketDecodeError (Nat × List Nat))
  | 0, _, _ => none
  | fuel+1, padding_len, bytes =>
    match bytes with
    | [] => none
    | byte :: bytes =>
      if byte > 2 ^ 32 - 1 - 255 then some (Except.error OpusPacketDecodeError.InvalidData)
      else
        let padding_len := padding_len + byte
        if byte < 255 then some (Except.ok (padding_len, bytes))
        else paddingLoop fuel (padding_len - 1) bytes

/-- The VBR size-reading loop (opus/mod.rs lines 170 to 177): reads
`frame_count` variable-length sizes, keeping the nonzero ones. -/
def vbrSizes : Nat → List Nat → Option (List Nat × List Nat)
  | 0, bytes => some ([], bytes)
  | n+1, bytes =>
    match read_variable_length bytes with
    | none => none
    | some (len, bytes) =>
      match vbrSizes n bytes with
      | none => none
      | some (sizes, bytes) => some ((if len > 0 then [len] else []) ++ sizes, bytes)

/-- The VBR slicing loop (opus/mod.rs lines 179 to 185); `none` models
the slice or `advance` panic when a size overruns the buffer. -/
def vbrSlices : List Nat → List Nat → Option (List (List Nat) × List Nat)
  | [], bytes => some ([], bytes)
  | len :: sizes, bytes =>
    if len > bytes.length then none
    else
      let head := if len ≤ MAX_FRAME_LEN then [bytes.take len] else []
      match vbrSlices sizes (bytes.drop len) with
      | none => none
      | some (datas, bytes) => some (head ++ datas, bytes)

/-- The CBR slicing loop (opus/mod.rs lines 193 to 198). -/
def cbrSlices : Nat → Nat → List Nat → List (List Nat)
  | 0, _, _ => []
  | n+1, len, bytes => bytes.take len :: cbrSlices n len (bytes.drop len)

structure OpusPacket where
  toc : TableOfContents
  frames : List OpusFrame
deriving DecidableEq

/-- The frame-decoding loop at the end of `OpusPacket::decode`
(opus/mod.rs lines 203 to 206), with the `?`-conversion into
`FrameDecodeError`. -/
def decodeFrames (toc : TableOfContents) :
    List (List Nat) → Option (Except OpusPacketDecodeError (List OpusFrame))
  | [] => some (Except.ok [])
  | data :: datas =>
    match OpusFrame.deocde toc data with
    | none => none
    | some (Except.error e) =>
      some (Except.error (OpusPacketDecodeError.FrameDecodeError e))
    | some (Except.ok f) =>
      match decodeFrames toc datas with
      | none => none
      | some (Except.error e) => some (Except.error e)
      | some (Except.ok fs) => some (Except.ok (f :: fs))

/-- `OpusPacket::decode` (opus/mod.rs line 75).  `none` models the
panics of the source (out-of-bounds slices, `get_u8` on an exhausted
buffer, `todo!()`).  The demultiplexed slices (the `datas` local) are
returned beside the packet for inspection. -/
def OpusPacket.decode (bytes : List Nat) :
    Option (Except OpusPacketDecodeError (OpusPacket × List (List Nat))) :=
  match bytes with
  | [] => some (Except.error OpusPacketDecodeError.InvalidData)
  | tocByte :: bytes =>
    let toc := TableOfContents.decode tocByte
    let datasRes : Option (Except OpusPacketDecodeError (List (List Nat))) :=
      match toc.code with
      | FrameCode.Single =>
        some (Except.ok (if bytes.length ≤ MAX_FRAME_LEN then [bytes] else []))
      | FrameCode.DoubleCBR =>
        -- note the test: an even remainder is rejected
        if bytes.length &&& 1 ≠ 1 then some (Except.error OpusPacketDecodeError.InvalidData)
        else
          let half := bytes.length / 2
          some (Except.ok
            (if half ≤ MAX_FRAME_LEN then [bytes.take half, bytes.drop half] else []))
      | FrameCode.DoubleVBR =>
        match read_variable_length bytes with
        | none => none
        | some (len, bytes) =>
          if len > MAX_FRAME_LEN then some (Except.error OpusPacketDecodeError.InvalidData)
          else if len > 0 then
            if len > bytes.length then none
            else some (Except.ok [bytes.take len, bytes.drop len])
          else some (Except.ok [])
      | FrameCode.Multiple =>
        match bytes with
        | [] => none
        | flag :: bytes =>
          let is_vbr := flag &&& 0x80 ≠ 0
          let frame_count := flag &&& 0x3F
          let has_padding := flag &&& 0x40 = 1
          if frame_count = 0 ∨ frame_count > MAX_FRAMES then
            some (Except.error OpusPacketDecodeError.FramesOverflow)
          else
            let padded : Option (Except OpusPacketDecodeError (List Nat)) :=
              if has_padding then
                match paddingLoop (bytes.length + 1) 0 bytes with
                | none => none
                | some (Except.error e) => some (Except.error e)
                | some (Except.ok (padding_len, bytes)) =>
                  if padding_len > bytes.length then none
                  else some (Except.ok (bytes.take (bytes.length - padding_len)))
              else some (Except.ok bytes)
            match padded with
            | none => none
            | some (Except.error e) => some (Except.error e)
            | some (Except.ok bytes) =>
              if is_vbr then
                match vbrSizes frame_count bytes with
                | none => none
                | some (sizes, bytes) =>
                  match vbrSlices sizes bytes with
                  | none => none
                  | some (datas, bytes) =>
                    some (Except.ok
                      (if bytes.length ≤ MAX_FRAME_LEN then datas ++ [bytes] else datas))
              else
                let len := bytes.length / frame_count
                some (Except.ok (cbrSlices frame_count len bytes))
    match datasRes with
    | none => none
    | some (Except.error e) => some (Except.error e)
    | some (Except.ok datas) =>
      match decodeFrames toc datas with
      | none => none
      | some (Except.error e) => some (Except.error e)
      | some (Except.ok frames) => some (Except.ok (⟨toc, frames⟩, datas))

/-! ### Facts about `ensure_valid_range` and `logp` -/

theorem CODE_MIN_NORMALIZATION_eq :
    RangeCodingDecoder.CODE_MIN_NORMALIZATION = 2 ^ 23 := rfl

theorem evrStep_range (s : RangeCodingDecoder) :
    (RangeCodingDecoder.evrStep s).current_range =
      if s.current_range ≤ RangeCodingDecoder.CODE_MIN_NORMALIZATION then
        s.current_range * 2 ^ 8 else s.current_range := by
  unfold RangeCodingDecoder.evrStep
  by_cases hcond : s.current_range ≤ RangeCodingDecoder.CODE_MIN_NORMALIZATION
  · rw [if_pos hcond, if_pos hcond]
    rcases hg : s.forward_reader.getBits32 RangeCodingDecoder.SYMBOL_BITS with ⟨bits, fw⟩
    show s.current_range <<< RangeCodingDecoder.SYMBOL_BITS = _
    rw [Nat.shiftLeft_eq]
    rfl
  · rw [if_neg hcond, if_neg hcond]

theorem evrStep_consumed (s : RangeCodingDecoder) :
    (RangeCodingDecoder.evrStep s).consumed_bits =
      if s.current_range ≤ RangeCodingDecoder.CODE_MIN_NORMALIZATION then
        s.consumed_bits + 8 else s.consumed_bits := by
  unfold RangeCodingDecoder.evrStep
  by_cases hcond : s.current_range ≤ RangeCodingDecoder.CODE_MIN_NORMALIZATION
  · rw [if_pos hcond, if_pos hcond]
    rcases hg : s.forward_reader.getBits32 RangeCodingDecoder.SYMBOL_BITS with ⟨bits, fw⟩
    rfl
  · rw [if_neg hcond, if_neg hcond]

theorem evrStep_bitlen (s : RangeCodingDecoder) :
    (RangeCodingDecoder.evrStep s).bitstream_length = s.bitstream_length := by
  unfold RangeCodingDecoder.evrStep
  by_cases hcond : s.current_range ≤ RangeCodingDecoder.CODE_MIN_NORMALIZATION
  · rw [if_pos hcond]
  · rw [if_neg hcond]

theorem ensureValidRange_range_pos (s : RangeCodingDecoder)
    (h : 1 ≤ s.current_range) :
    2 ^ 23 < (RangeCodingDecoder.ensureValidRange s).current_range := by
  unfold RangeCodingDecoder.ensureValidRange
  have hcmn : RangeCodingDecoder.CODE_MIN_NORMALIZATION = 8388608 := rfl
  have h1 := evrStep_range s
  have h2 := evrStep_range (RangeCodingDecoder.evrStep s)
  have h3 := evrStep_range (RangeCodingDecoder.evrStep (RangeCodingDecoder.evrStep s))
  split_ifs at h1 h2 h3 <;> omega

theorem ensureValidRange_bitlen (s : RangeCodingDecoder) :
    (RangeCodingDecoder.ensureValidRange s).bitstream_length = s.bitstream_length := by
  unfold RangeCodingDecoder.ensureValidRange
  rw [evrStep_bitlen, evrStep_bitlen, evrStep_bitlen]

/-! ### Helper lemmas for the silent-frame pipeline -/

theorem foldl_const_id {α β : Type} (f : α → β → α) (a : α)
    (h : ∀ b, f a b = a) : ∀ l : List β, l.foldl f a = a := by
  intro l
  induction l with
  | nil => rfl
  | cons b l ih => rw [List.foldl_cons, h b]; exact ih

theorem replicate_getD_zero (n i : Nat) : (List.replicate n (0 : Int)).getD i 0 = 0 := by
  induction n generalizing i with
  | zero => simp [List.getD]
  | succ n ih =>
    cases i with
    | zero => rfl
    | succ i =>
      rw [List.replicate_succ]
      show (List.replicate n (0 : Int)).getD i 0 = 0
      exact ih i

theorem replicate_set_zero (n i : Nat) :
    (List.replicate n (0 : Int)).set i 0 = List.replicate n 0 := by
  induction n generalizing i with
  | zero => rfl
  | succ n ih =>
    cases i with
    | zero => rw [List.replicate_succ]; rfl
    | succ i =>
      rw [List.replicate_succ]
      show (0 : Int) :: (List.replicate n (0 : Int)).set i 0 = _
      rw [ih i]

theorem tf_select_zero (sz : Nat) :
    ((((TF_SELECT.getD sz []).getD 0 []).getD 0 []).getD 0 0 : Int) = 0 := by
  match sz with
  | 0 => decide
  | 1 => decide
  | 2 => decide
  | 3 => decide
  | n+4 =>
    have h4 : TF_SELECT.getD (n+4) [] = [] := by
      apply List.getD_eq_default
      norm_num [TF_SELECT]
    rw [h4]
    rfl

/-- The normalisation chain from the seed range 128 of `new`: three
passes of eight bits each. -/
theorem ensureValidRange_from_seed (s : RangeCodingDecoder)
    (hr : s.current_range = 128) :
    (RangeCodingDecoder.ensureValidRange s).current_range = 2 ^ 31 ∧
    (RangeCodingDecoder.ensureValidRange s).consumed_bits = s.consumed_bits + 24 ∧
    (RangeCodingDecoder.ensureValidRange s).bitstream_length = s.bitstream_length := by
  unfold RangeCodingDecoder.ensureValidRange
  have hcmn : RangeCodingDecoder.CODE_MIN_NORMALIZATION = 8388608 := rfl
  have e1r := evrStep_range s
  have e1c := evrStep_consumed s
  have e1b := evrStep_bitlen s
  have e2r := evrStep_range (RangeCodingDecoder.evrStep s)
  have e2c := evrStep_consumed (RangeCodingDecoder.evrStep s)
  have e2b := evrStep_bitlen (RangeCodingDecoder.evrStep s)
  have e3r := evrStep_range
    (RangeCodingDecoder.evrStep (RangeCodingDecoder.evrStep s))
  have e3c := evrStep_consumed
    (RangeCodingDecoder.evrStep (RangeCodingDecoder.evrStep s))
  have e3b := evrStep_bitlen
    (RangeCodingDecoder.evrStep (RangeCodingDecoder.evrStep s))
  split_ifs at e1r e1c e2r e2c e3r e3c <;> omega

/-- The normalisation chain from the range `2 ^ 16` left by a true
`logp 15` at range `2 ^ 31`: exactly one pass. -/
theorem ensureValidRange_from_mid (s : RangeCodingDecoder)
    (hr : s.current_range = 65536) :
    (RangeCodingDecoder.ensureValidRange s).current_range = 2 ^ 24 ∧
    (RangeCodingDecoder.ensureValidRange s).consumed_bits = s.consumed_bits + 8 ∧
    (RangeCodingDecoder.ensureValidRange s).bitstream_length = s.bitstream_length := by
  unfold RangeCodingDecoder.ensureValidRange
  have hcmn : RangeCodingDecoder.CODE_MIN_NORMALIZATION = 8388608 := rfl
  have e1r := evrStep_range s
  have e1c := evrStep_consumed s
  have e1b := evrStep_bitlen s
  have e2r := evrStep_range (RangeCodingDecoder.evrStep s)
  have e2c := evrStep_consumed (RangeCodingDecoder.evrStep s)
  have e2b := evrStep_bitlen (RangeCodingDecoder.evrStep s)
  have e3r := evrStep_range
    (RangeCodingDecoder.evrStep (RangeCodingDecoder.evrStep s))
  have e3c := evrStep_consumed
    (RangeCodingDecoder.evrStep (RangeCodingDecoder.evrStep s))
  have e3b := evrStep_bitlen
    (RangeCodingDecoder.evrStep (RangeCodingDecoder.evrStep s))
  split_ifs at e1r e1c e2r e2c e3r e3c <;> omega

theorem new_facts (bytes : List Nat) :
    (RangeCodingDecoder.new bytes).current_range = 2 ^ 31 ∧
    (RangeCodingDecoder.new bytes).consumed_bits = 33 ∧
    (RangeCodingDecoder.new bytes).bitstream_length = bytes.length * 8 := by
  have hnew : RangeCodingDecoder.new bytes = RangeCodingDecoder.ensureValidRange
      ⟨((BigEndianBitReader.new bytes).getBits32 7).2, LittleEndianBitReader.new bytes,
        bytes.length * 8, 128, 127 - ((BigEndianBitReader.new bytes).getBits32 7).1,
        RangeCodingDecoder.SYMBOL_BITS + 1⟩ := rfl
  rw [hnew]
  exact ensureValidRange_from_seed _ rfl

/-- After a true `logp 15` from the state `new` leaves (range `2 ^ 31`,
33 bits consumed), the range is `2 ^ 24` and 41 bits are consumed. -/
theorem logp15_facts (s : RangeCodingDecoder) (hr : s.current_range = 2 ^ 31)
    (hb : (s.logp 15).1 = true) :
    (s.logp 15).2.current_range = 2 ^ 24 ∧
    (s.logp 15).2.consumed_bits = s.consumed_bits + 8 ∧
    (s.logp 15).2.bitstream_length = s.bitstream_length := by
  simp only [RangeCodingDecoder.logp] at hb ⊢
  by_cases hcv : s.current_range >>> 15 > s.coded_value
  · rw [if_pos hcv]
    have hshift : s.current_range >>> 15 = 65536 := by
      rw [hr]
      decide
    exact ensureValidRange_from_mid _ hshift
  · rw [if_neg hcv] at hb
    simp at hb

/-- `to_end` from the state a true silence flag leaves (range `2 ^ 24`,
41 bits consumed): the stream is exactly exhausted, and the fractional
tell overshoots the eighth-bit budget by 16. -/
theorem toEnd_silent_facts (s : RangeCodingDecoder) (hr : s.current_range = 2 ^ 24)
    (hc : s.consumed_bits = 41) (hbl : 16 ≤ s.bitstream_length) :
    s.toEnd.available = 0 ∧
    (s.toEnd.len : Int) * 8 ≤ (s.toEnd.tellFrac : Int) := by
  have hlog : ilog2 (2 ^ 24) = 24 := by decide
  have hfr : RangeCodingDecoder.tellFracLog (2 ^ 24) = 184 := by decide
  have htell : s.tell = 16 := by
    unfold RangeCodingDecoder.tell
    rw [hr, hc, hlog]
  have hcons : s.toEnd.consumed_bits = s.bitstream_length + 25 := by
    show s.consumed_bits + (s.bitstream_length - s.tell) = _
    rw [hc, htell]
    omega
  have hrange : s.toEnd.current_range = 2 ^ 24 := hr
  have hblen : s.toEnd.bitstream_length = s.bitstream_length := rfl
  have htell2 : s.toEnd.tell = s.bitstream_length := by
    unfold RangeCodingDecoder.tell
    rw [hcons, hrange, hlog]
    omega
  have hava : s.toEnd.available = 0 := by
    unfold RangeCodingDecoder.available
    rw [htell2, hblen]
    omega
  have htfrac : s.toEnd.tellFrac = s.bitstream_length * 8 + 16 := by
    unfold RangeCodingDecoder.tellFrac
    rw [hcons, hrange, hfr]
    omega
  have hlen : s.toEnd.len = s.bitstream_length := rfl
  refine ⟨hava, ?_⟩
  rw [hlen, htfrac]
  push_cast
  omega

theorem coarseEnergyStep_id (model : List Nat) (band : Nat) (rd : RangeCodingDecoder)
    (hava : rd.available = 0) : coarseEnergyStep model band rd = rd := by
  simp [coarseEnergyStep, hava]

theorem coarseChannelFold_id (dec : CeltFrameDecoder) (model : List Nat)
    (rd : RangeCodingDecoder) (hava : rd.available = 0) (band : Nat) :
    coarseChannelFold dec model rd band = rd := by
  unfold coarseChannelFold
  refine foldl_const_id _ _ (fun c => ?_) _
  show (if dec.band_start ≤ band ∧ band < dec.band_end then
      coarseEnergyStep model band rd else rd) = rd
  by_cases hc : dec.band_start ≤ band ∧ band < dec.band_end
  · rw [if_pos hc]
    exact coarseEnergyStep_id model band rd hava
  · rw [if_neg hc]

theorem coarse_decode_id (dec : CeltFrameDecoder) (rd : RangeCodingDecoder)
    (hava : rd.available = 0) : CoarseEnergy.decode dec rd = rd := by
  unfold CoarseEnergy.decode
  rw [if_neg (show ¬ rd.available > 3 by omega)]
  exact foldl_const_id _ _ (fun band => coarseChannelFold_id dec _ rd hava band) _

theorem tfStep_silent (dec : CeltFrameDecoder) (extra : Nat) (rd : RangeCodingDecoder)
    (hava : rd.available = 0) (bits : Nat) (i : Nat) :
    tfStep dec extra (rd, bits, false, false, List.replicate MAX_BANDS (0 : Int)) i =
      (rd, if dec.transient then 4 else 5, false, false,
        List.replicate MAX_BANDS 0) := by
  simp only [tfStep]
  rw [if_neg (show ¬ rd.available > bits + extra by omega)]
  simp [replicate_set_zero]

theorem tf_fold_silent (dec : CeltFrameDecoder) (extra : Nat) (rd : RangeCodingDecoder)
    (hava : rd.available = 0) (l : List Nat) :
    ∀ bits : Nat, ∃ bits2,
      l.foldl (tfStep dec extra)
          (rd, bits, false, false, List.replicate MAX_BANDS (0 : Int)) =
        (rd, bits2, false, false, List.replicate MAX_BANDS 0) := by
  induction l with
  | nil => intro bits; exact ⟨bits, rfl⟩
  | cons i l ih =>
    intro bits
    rw [List.foldl_cons, tfStep_silent dec extra rd hava bits i]
    exact ih _

theorem tf_decode_silent (dec : CeltFrameDecoder) (rd : RangeCodingDecoder)
    (hava : rd.available = 0) (htr : dec.transient = false)
    (htf0 : dec.time_frequency_change = List.replicate MAX_BANDS 0) :
    TimeFrequencyChange.decode dec rd = (List.replicate MAX_BANDS 0, rd) := by
  simp only [TimeFrequencyChange.decode]
  rw [htf0]
  obtain ⟨bits2, hfold⟩ := tf_fold_silent dec
    (if dec.size ≠ 0 ∧ rd.available > (if dec.transient then 2 else 4) then 1 else 0)
    rd hava (List.range' dec.band_start (dec.band_end - dec.band_start))
    (if dec.transient then 2 else 4)
  rw [hfold]
  dsimp only
  simp [hava, htr]
  refine foldl_const_id _ _ (fun i => ?_) _
  simp only [← List.getD_eq_getElem?_getD]
  rw [replicate_getD_zero, Int.toNat_zero, tf_select_zero, replicate_set_zero]

theorem boostLoop_exit (quanta : Nat) (cap : Int) (fuel : Nat) (rd : RangeCodingDecoder)
    (boostI tbits bd : Int)
    (hgate : ¬ ((rd.tellFrac : Int) + bd * 8 < tbits ∧ boostI < cap)) :
    boostLoop quanta cap fuel (rd, boostI, tbits, bd) = (rd, boostI, tbits, bd) := by
  cases fuel with
  | zero => rfl
  | succ fuel =>
    simp only [boostLoop]
    rw [if_neg hgate]

theorem boostStep_silent (dec : CeltFrameDecoder) (caps : List Int)
    (rd : RangeCodingDecoder) (htf : (rd.len : Int) * 8 ≤ (rd.tellFrac : Int)) (i : Nat) :
    boostStep dec caps (rd, List.replicate MAX_BANDS (0 : Int), ((rd.len : Int)) * 8, 6) i
      = (rd, List.replicate MAX_BANDS 0, ((rd.len : Int)) * 8, 6) := by
  simp only [boostStep]
  rw [replicate_getD_zero,
    boostLoop_exit _ _ _ _ _ _ _ (by rintro ⟨h1, h2⟩; omega)]
  dsimp only
  rw [replicate_set_zero, replicate_getD_zero]
  simp

theorem bandBoostPass_silent (dec : CeltFrameDecoder) (caps : List Int)
    (rd : RangeCodingDecoder) (htf : (rd.len : Int) * 8 ≤ (rd.tellFrac : Int)) :
    bandBoostPass dec caps rd =
      (rd, List.replicate MAX_BANDS 0, ((rd.len : Int)) * 8, 6) := by
  unfold bandBoostPass
  exact foldl_const_id _ _ (fun i => boostStep_silent dec caps rd htf i) _

/-- With no budget left and no transient, the whole allocation stage
reads nothing: the spread stays at its `Normal` default, no band is
boosted, the trim keeps its default 5, and no reservation fires. -/
theorem bitAlloc_silent (dec : CeltFrameDecoder) (rd : RangeCodingDecoder)
    (hava : rd.available = 0) (htf : (rd.len : Int) * 8 ≤ (rd.tellFrac : Int))
    (htr : dec.transient = false) :
    ∃ isb dsb tb lw,
      BitAlloc.decode dec rd =
        ({ dec with
            spread := some Spread.Normal
            caps := bitAllocCaps { dec with spread := some Spread.Normal }
            alloc_trim := 5
            anticollapse_needed := 0 },
         { boost := List.replicate MAX_BANDS 0
           dynalloc_final := 6
           boost_tbits := (rd.len : Int) * 8
           budget_at_anticollapse := (rd.len : Int) * 8 - (rd.tellFrac : Int) - 1
           skip_bit := 0
           intensitystereo_bit := isb
           dualstereo_bit := dsb
           tbits_final := tb
           bisect_low := lw },
         rd) := by
  unfold BitAlloc.decode
  rw [if_neg (show ¬ rd.available > 4 by omega)]
  dsimp only
  rw [bandBoostPass_silent _ _ _ htf]
  dsimp only
  rw [if_neg (show ¬ ((rd.tellFrac : Int) + 6 * 8 ≤ (rd.len : Int) * 8) by omega)]
  dsimp only
  rw [htr]
  simp only [Bool.false_and, Bool.and_self, Bool.false_eq_true, if_false, Nat.cast_zero]
  norm_num

/-- C1: the claim that `tell_frac() / 8` always lies between
`tell() − 1` and `tell() + 1` fails on the code.  After `new` over the
buffer `FF FF FF FF` and one `logp(7)` (the true branch, a reachable
state with range `2 ^ 24`),
`tell()` is 8 but `tell_frac()` is 80, so `tell_frac() / 8 = tell() + 2`.
The reference `ec_tell_frac` satisfies `⌈tell_frac / 8⌉ = tell`, which
implies the claim; this port seeds the Q15 iteration from
`ilog2(range) − 1` instead of `ilog2(range) + 1`, so `range_q15` lands
in `[2 ^ 17, 2 ^ 18)` and the iteration bit `range_q15 >> 16` can reach
31: the fractional log is wrong by up to two bits, a mis-port of the
reference specification the spec calls bit-exact. -/
theorem c1_tell_frac_off_by_two :
    ((((RangeCodingDecoder.new [255, 255, 255, 255]).logp 7)).2.tell = 8) ∧
    ((((RangeCodingDecoder.new [255, 255, 255, 255]).logp 7)).2.tellFrac = 80) ∧
    ((((RangeCodingDecoder.new [255, 255, 255, 255]).logp 7)).2.tellFrac / 8 =
      (((RangeCodingDecoder.new [255, 255, 255, 255]).logp 7)).2.tell + 2) := by
  decide

/-- C2 counterexample: a decoder state reachable from
`new [0xBF, 0xFF, 0xFF, 0xFF]` by `logp 2` (false branch) then `logp 7`
(true branch) has `current_range = 0xC00000 = 12582912 < 2 ^ 24` right
after the `logp` call, refuting `range ≥ 2 ^ 24`. -/
theorem c2_counterexample :
    ((((RangeCodingDecoder.new [0xBF, 0xFF, 0xFF, 0xFF]).logp 2).2.logp 7).2.current_range
      = 12582912) ∧
    ((((RangeCodingDecoder.new [0xBF, 0xFF, 0xFF, 0xFF]).logp 2).2.logp 7).2.current_range
      < 2 ^ 24) := by
  decide

/-- C2 amended: after every `logp(p)` with `p ≥ 1` from a state with
nonzero range, the range exceeds `2 ^ 23` (the post-normalise invariant
of the reference; it is not always `≥ 2 ^ 24`). -/
theorem c2_amended_logp_range_exceeds_2_23 (s : RangeCodingDecoder) (p : Nat)
    (hp : 1 ≤ p) (hr : 1 ≤ s.current_range) :
    2 ^ 23 < ((s.logp p).2).current_range := by
  simp only [RangeCodingDecoder.logp]
  by_cases hcv : s.current_range >>> p > s.coded_value
  · rw [if_pos hcv]
    apply ensureValidRange_range_pos
    show 1 ≤ s.current_range >>> p
    omega
  · rw [if_neg hcv]
    apply ensureValidRange_range_pos
    show 1 ≤ s.current_range - s.current_range >>> p
    have hhalf : s.current_range >>> p ≤ s.current_range / 2 := by
      rw [Nat.shiftRight_eq_div_pow]
      exact Nat.div_le_div_left (by
        calc (2:Nat) = 2 ^ 1 := rfl
          _ ≤ 2 ^ p := Nat.pow_le_pow_right (by omega) hp) (by omega)
    omega

/-- C2 amended witness at the state of the counterexample: the range
after that very `logp 7` still exceeds `2 ^ 23`. -/
theorem c2_amended_witness :
    2 ^ 23 <
      ((((RangeCodingDecoder.new [0xBF, 0xFF, 0xFF, 0xFF]).logp 2).2.logp 7).2).current_range :=
  c2_amended_logp_range_exceeds_2_23
    (((RangeCodingDecoder.new [0xBF, 0xFF, 0xFF, 0xFF]).logp 2).2) 7
    (by decide) (by decide)

/-- C3: on every byte buffer (the empty one included) and every request
schedule of widths `≤ 25`, both readers are total by construction and
return exactly the stream bits at the running position, zero-extended
past the end of the buffer; in particular once at least all
`8 * length` bits have been consumed, every further call returns 0. -/
theorem c3_get_bits_total_and_zero_past_end
    (bytes : List Nat) (wf : WfBytes bytes) (ws : List Nat)
    (hws : ∀ w ∈ ws, w ≤ 25) (n : Nat) (hn : n ≤ 25) :
    ((runBE (BigEndianBitReader.new bytes) ws).getBits32 n).1 = bitsBE bytes ws.sum n ∧
    ((runLE (LittleEndianBitReader.new bytes) ws).getBits32 n).1 = bitsLE bytes ws.sum n ∧
    (8 * bytes.length ≤ ws.sum →
      ((runBE (BigEndianBitReader.new bytes) ws).getBits32 n).1 = 0 ∧
      ((runLE (LittleEndianBitReader.new bytes) ws).getBits32 n).1 = 0) := by
  have hbe := runBE_inv bytes wf ws 0 (BigEndianBitReader.new bytes) hws (BEInv_new bytes wf)
  have hle := runLE_inv bytes wf ws 0 (LittleEndianBitReader.new bytes) hws (LEInv_new bytes wf)
  rw [Nat.zero_add] at hbe hle
  have h1 := (BE_getBits32_spec bytes wf ws.sum n _ hbe hn).1
  have h2 := (LE_getBits32_spec bytes wf ws.sum n _ hle hn).1
  refine ⟨h1, h2, fun hcons => ⟨?_, ?_⟩⟩
  · rw [h1]
    exact bitsBE_zero_of_past_end bytes _ _ hcons
  · rw [h2]
    exact bitsLE_zero_of_past_end bytes _ _ hcons

/-- C3 witness: a one-byte buffer consumed by a single 25-bit request,
after which a 4-bit request returns zero on both readers. -/
theorem c3_witness :
    WfBytes [171] ∧ (∀ w ∈ [25], w ≤ 25) ∧ (4 : Nat) ≤ 25 ∧
    8 * [171].length ≤ [25].sum ∧
    ((runBE (BigEndianBitReader.new [171]) [25]).getBits32 4).1 = 0 ∧
    ((runLE (LittleEndianBitReader.new [171]) [25]).getBits32 4).1 = 0 := by
  refine ⟨by decide, by decide, by decide, by decide, ?_⟩
  exact (c3_get_bits_total_and_zero_past_end [171] (by decide) [25] (by decide) 4
    (by decide)).2.2 (by decide)

/-- C4 counterexample: on the all-ones four-byte frame the silence flag
decodes to true, yet the resulting parameter record is not all-zero:
`alloc_trim` is 5 (its untouched default in the budget-starved branch of
the trim stage) and the trace records `dynalloc = 6`.  The read-no-more
part of the claim is real and is proved, amended, below; the all-zero
part is what fails. -/
theorem c4_counterexample :
    Except.map (fun r => (r.1.silence, r.1.alloc_trim, r.2.1.dynalloc_final))
        (CeltFrameDecoder.decode (TableOfContents.decode 0x80)
          (RangeCodingDecoder.new [255, 255, 255, 255])) =
      Except.ok (true, 5, 6) := by
  decide

/-- C5: the skip reservation is claimed to deduct one bit from the
running `tbits_8ths` counter whenever at least one bit remains.  On an
all-zero ten-byte frame the budget right before the anticollapse
reservation is 323 eighth-bits (at least one bit remains, and
`anticollapse_needed` is 0 so no reservation is due), yet `skip_bit`
is 0: line 185 of `celt/bit_alloc.rs` assigns
`tbits_8ths = dec.anticollapse_needed` instead of subtracting the
reservation, clobbering the budget to 0, so the skip, intensity-stereo
and dual-stereo reservations all misfire.  A code bug. -/
theorem c5_budget_clobbered_by_anticollapse_assignment :
    Except.map
        (fun r => (r.2.1.budget_at_anticollapse, r.1.anticollapse_needed, r.2.1.skip_bit))
        (CeltFrameDecoder.decode (TableOfContents.decode 0x80)
          (RangeCodingDecoder.new (List.replicate 10 0))) =
      Except.ok (323, 0, 0) := by
  decide

def c6bytes : List Nat :=
  [29, 93, 217, 37, 137, 8, 45, 133, 42, 113, 34, 135, 62, 232, 5, 173, 213, 137, 66, 22,
   122, 56, 82, 134, 25]

/-- C6: the claim says that after the current band has received at least
one boost the global dynalloc cost decreases by one.  On `c6bytes`
band 12 accepts one boost of 32 eighth-bits, so the final dynalloc cost
should be 5; the code leaves it at 6 because line 164 of
`celt/bit_alloc.rs` tests `boost[1] > 0` instead of `boost[i] > 0` and
band 1 received no boost.  A code bug. -/
theorem c6_dynalloc_tests_wrong_band :
    Except.map
        (fun r => ((r.2.1.boost.getD 12 0, r.2.1.boost.getD 1 0), r.2.1.dynalloc_final))
        (CeltFrameDecoder.decode (TableOfContents.decode 0x80)
          (RangeCodingDecoder.new c6bytes)) =
      Except.ok ((32, 0), 6) := by
  decide

/-- C7: the claim says a DoubleCBR packet is rejected with
`InvalidData` exactly when the remainder after the TOC byte has odd
length.  The code has the parity test inverted
(`bytes.len() & 1 != 1`): the even remainder `AA BB` is rejected, while
the odd remainder `AA` is accepted and split into a 0-byte and a 1-byte
frame.  A code bug. -/
theorem c7_double_cbr_parity_inverted :
    OpusPacket.decode [0x81, 0xAA, 0xBB] =
      some (Except.error OpusPacketDecodeError.InvalidData) ∧
    OpusPacket.decode [0x81, 0xAA] =
      some (Except.ok (⟨TableOfContents.decode 0x81, [⟨⟩, ⟨⟩]⟩, [[], [170]])) := by
  decide

def c8bytes : List Nat :=
  [0x83, 0x83, 251, 252, 12] ++ [7] ++ List.replicate 251 0 ++ List.replicate 300 0 ++
    List.replicate 7 0 ++ List.replicate 4 0

/-- C8: the claim (and the RFC) say a VBR Multiple packet with
`M = 3` reads `M − 1 = 2` explicit sizes and takes the remainder as the
last frame, so `c8bytes` (flag `0x83`, sizes 251 and 300 encoded as
`251` and `252 12`, then 563 bytes of payload) should yield exactly
three frames of sizes 251, 300 and 12.  The code's loop at
`opus/mod.rs` line 171 runs `frame_count` times, reading one size too
many: the first payload byte 7 is consumed as a third size and four
frames of sizes 251, 300, 7 and 4 come back.  A code bug. -/
theorem c8_vbr_reads_frame_count_sizes :
    Option.map
        (Except.map (fun r => (r.2.map List.length, r.1.frames.length)))
        (OpusPacket.decode c8bytes) =
      some (Except.ok ([251, 300, 7, 4], 4)) := by
  decide

/-- Modelled from the spec: the 32-row configuration table of the TOC
byte (RFC 6716 table 2, reproduced in the spec and in the doc comment of
`toc.rs`), used as the independent reference against which the decoded
triple is compared row by row. -/
def configTable : List (EncodeMode × Bandwidth × FrameDuration) := [
  (.SILK, .Narrow, .Medium), (.SILK, .Narrow, .Standard),
  (.SILK, .Narrow, .Long), (.SILK, .Narrow, .VeryLong),
  (.SILK, .Medium, .Medium), (.SILK, .Medium, .Standard),
  (.SILK, .Medium, .Long), (.SILK, .Medium, .VeryLong),
  (.SILK, .Wide, .Medium), (.SILK, .Wide, .Standard),
  (.SILK, .Wide, .Long), (.SILK, .Wide, .VeryLong),
  (.Hybrid, .SuperWide, .Medium), (.Hybrid, .SuperWide, .Standard),
  (.Hybrid, .Full, .Medium), (.Hybrid, .Full, .Standard),
  (.CELT, .Narrow, .VeryShort), (.CELT, .Narrow, .Short),
  (.CELT, .Narrow, .Medium), (.CELT, .Narrow, .Standard),
  (.CELT, .Wide, .VeryShort), (.CELT, .Wide, .Short),
  (.CELT, .Wide, .Medium), (.CELT, .Wide, .Standard),
  (.CELT, .SuperWide, .VeryShort), (.CELT, .SuperWide, .Short),
  (.CELT, .SuperWide, .Medium), (.CELT, .SuperWide, .Standard),
  (.CELT, .Full, .VeryShort), (.CELT, .Full, .Short),
  (.CELT, .Full, .Medium), (.CELT, .Full, .Standard)]

/-- C9: `TableOfContents.decode` is total on all 256 byte values, its
mode, bandwidth and duration agree with the fixed 32-row configuration
table indexed by the top five bits, the frame code comes from bits 0
and 1, the channel count comes from bit 2 (this one field is modelled
from the spec, the snapshot of `toc.rs` lacking the `Channels` type its
CELT callers import), and the byte `0x00` decodes to SILK, narrowband,
10 ms, mono, a single frame. -/
theorem c9_toc_decode_total_and_table (b : Nat) (hb : b < 256) :
    ((TableOfContents.decode b).mode, (TableOfContents.decode b).bandwidth,
        (TableOfContents.decode b).duration) =
      configTable.getD ((b >>> 3) &&& 31)
        (EncodeMode.SILK, Bandwidth.Narrow, FrameDuration.Medium) ∧
    (TableOfContents.decode b).code =
      [FrameCode.Single, FrameCode.DoubleCBR, FrameCode.DoubleVBR,
        FrameCode.Multiple].getD (b &&& 3) FrameCode.Single ∧
    (TableOfContents.decode b).channels =
      (if b &&& 4 ≠ 0 then Channels.Stereo else Channels.Mono) ∧
    TableOfContents.decode 0 =
      ⟨EncodeMode.SILK, Bandwidth.Narrow, FrameDuration.Medium, Channels.Mono,
        FrameCode.Single⟩ := by
  revert hb
  revert b
  decide

/-- C9 witness at the byte `0x00`. -/
theorem c9_witness :
    (0 : Nat) < 256 ∧
    TableOfContents.decode 0 =
      ⟨EncodeMode.SILK, Bandwidth.Narrow, FrameDuration.Medium, Channels.Mono,
        FrameCode.Single⟩ :=
  ⟨by decide, (c9_toc_decode_total_and_table 0 (by decide)).2.2.2⟩

/-- C10: on well-formed bytes, whenever `read_variable_length` returns a
length it is at most `MAX_FRAME_LEN = 1275`, and the largest encodable
value `255 + 4 * 255` is exactly that bound. -/
theorem c10_read_variable_length_bounded (bytes : List Nat) (wf : WfBytes bytes)
    (len : Nat) (rest : List Nat)
    (h : read_variable_length bytes = some (len, rest)) :
    len ≤ MAX_FRAME_LEN ∧ 255 + 4 * 255 = MAX_FRAME_LEN := by
  have hm : MAX_FRAME_LEN = 1275 := rfl
  refine ⟨?_, by omega⟩
  cases bytes with
  | nil => exact absurd h (by simp [read_variable_length])
  | cons b rest0 =>
    have hb : b < 256 := wf b (List.mem_cons_self b rest0)
    by_cases hge : b ≥ 252
    · cases rest0 with
      | nil => simp [read_variable_length, if_pos hge] at h
      | cons b2 r2 =>
        have hb2 : b2 < 256 := wf b2 (by simp)
        simp only [read_variable_length, if_pos hge, Option.some.injEq, Prod.mk.injEq] at h
        omega
    · simp only [read_variable_length, if_neg hge, Option.some.injEq, Prod.mk.injEq] at h
      omega

/-- C10 witness at the extreme encoding `FF FF`. -/
theorem c10_witness :
    WfBytes [255, 255] ∧ read_variable_length [255, 255] = some (1275, []) ∧
    1275 ≤ MAX_FRAME_LEN :=
  ⟨by decide, by decide,
    (c10_read_variable_length_bounded [255, 255] (by decide) 1275 [] (by decide)).1⟩

theorem bitAlloc_silence_proj (dec : CeltFrameDecoder) (rd : RangeCodingDecoder) :
    (BitAlloc.decode dec rd).1.silence = dec.silence := rfl

theorem celtPostfilterStage_id (dec : CeltFrameDecoder) (rd : RangeCodingDecoder)
    (hava : rd.available = 0) : celtPostfilterStage dec rd = rd := by
  unfold celtPostfilterStage
  rw [if_neg (by rintro ⟨h1, h2⟩; omega)]

theorem celtTransientStage_none (dec : CeltFrameDecoder) (rd : RangeCodingDecoder)
    (hava : rd.available = 0) : celtTransientStage dec rd = (false, rd) := by
  unfold celtTransientStage
  rw [if_neg (by rintro ⟨h1, h2⟩; omega)]

/-- The whole post-silence body reads nothing when the budget is spent:
it only installs the defaults. -/
theorem celtBody_silent (dec : CeltFrameDecoder) (rd : RangeCodingDecoder)
    (hava : rd.available = 0) (htf : (rd.len : Int) * 8 ≤ (rd.tellFrac : Int))
    (htf0 : dec.time_frequency_change = List.replicate MAX_BANDS 0) :
    ∃ isb dsb tb lw,
      celtBody dec rd =
        ({ dec with
            transient := false
            time_frequency_change := List.replicate MAX_BANDS 0
            spread := some Spread.Normal
            caps := bitAllocCaps
              { dec with
                  transient := false
                  time_frequency_change := List.replicate MAX_BANDS 0
                  spread := some Spread.Normal }
            alloc_trim := 5
            anticollapse_needed := 0 },
         { boost := List.replicate MAX_BANDS 0
           dynalloc_final := 6
           boost_tbits := (rd.len : Int) * 8
           budget_at_anticollapse := (rd.len : Int) * 8 - (rd.tellFrac : Int) - 1
           skip_bit := 0
           intensitystereo_bit := isb
           dualstereo_bit := dsb
           tbits_final := tb
           bisect_low := lw },
         rd) := by
  unfold celtBody
  dsimp only
  rw [celtPostfilterStage_id _ _ hava]
  rw [celtTransientStage_none _ _ hava]
  dsimp only
  rw [coarse_decode_id _ _ hava]
  rw [tf_decode_silent { dec with transient := false } rd hava rfl htf0]
  dsimp only
  obtain ⟨isb, dsb, tb, lw, hba⟩ := bitAlloc_silent
    { dec with transient := false, time_frequency_change := List.replicate MAX_BANDS 0 }
    rd hava htf rfl
  rw [hba]
  exact ⟨isb, dsb, tb, lw, rfl⟩

set_option maxHeartbeats 1000000

theorem ite_true_eq {α : Type} (a b : α) :
    (if (true : Bool) = true then a else b) = a := rfl

/-- The unfolding of `CeltFrameDecoder.decode` with the locals inlined,
proved definitionally. -/
theorem celt_decode_eq (toc : TableOfContents) (rd : RangeCodingDecoder) :
    CeltFrameDecoder.decode toc rd =
      (if toc.bandwidth.band > MAX_BANDS then
        Except.error CeltFrameDecodeError.BandsOverflow
      else
        Except.ok (celtBody
          { band_start := if toc.mode = EncodeMode.Hybrid then 17 else 0
            band_end := toc.bandwidth.band
            size := ilog2 (toc.duration.samples / SHORT_BLOCKSIZE)
            silence := (if rd.available > 0 then rd.logp 15 else (true, rd)).1
            transient := false
            channels := toc.channels
            time_frequency_change := List.replicate MAX_BANDS 0
            spread := none
            caps := List.replicate MAX_BANDS 0
            alloc_trim := 0
            anticollapse_needed := 0 }
          (if (if rd.available > 0 then rd.logp 15 else (true, rd)).1 then
              (if rd.available > 0 then rd.logp 15 else (true, rd)).2.toEnd
            else (if rd.available > 0 then rd.logp 15 else (true, rd)).2))) := rfl

/-- C4 amended: on every frame of at least two bytes (so that
`available_bits > 0` always holds, the silence flag is read as
`logp 15`, and `to_end` cannot underflow), whenever the silence flag
comes back true the decoder records it, calls `to_end` and reads
nothing further — the returned range decoder is exactly the
post-`to_end` state — but the parameter record it emits is not
all-zero: the transient flag, the TF changes and the band boosts are
zero, while `alloc_trim` keeps the default 5 of the budget-starved trim
branch and the spread keeps its `Normal` default. -/
theorem c4_silent_frame_reads_nothing (bytes : List Nat) (toc : TableOfContents)
    (hlen : 2 ≤ bytes.length)
    (dec : CeltFrameDecoder) (trace : BitAllocTrace) (rd : RangeCodingDecoder)
    (hrun : CeltFrameDecoder.decode toc (RangeCodingDecoder.new bytes) =
      Except.ok (dec, trace, rd))
    (hsil : ((RangeCodingDecoder.new bytes).logp 15).1 = true) :
    dec.silence = true ∧
    rd = ((RangeCodingDecoder.new bytes).logp 15).2.toEnd ∧
    dec.transient = false ∧
    dec.time_frequency_change = List.replicate MAX_BANDS 0 ∧
    trace.boost = List.replicate MAX_BANDS 0 ∧
    dec.alloc_trim = 5 ∧
    dec.anticollapse_needed = 0 := by
  have hnf := new_facts bytes
  have htell1 : (RangeCodingDecoder.new bytes).tell = 1 := by
    unfold RangeCodingDecoder.tell
    rw [hnf.1, hnf.2.1]
    decide
  have hava0 : (RangeCodingDecoder.new bytes).available > 0 := by
    unfold RangeCodingDecoder.available
    rw [htell1, hnf.2.2]
    omega
  have hband : ¬ toc.bandwidth.band > MAX_BANDS := by
    cases toc.bandwidth <;> decide
  have hf := logp15_facts (RangeCodingDecoder.new bytes) hnf.1 hsil
  obtain ⟨hava1, htf1⟩ := toEnd_silent_facts ((RangeCodingDecoder.new bytes).logp 15).2 hf.1
    (by rw [hf.2.1, hnf.2.1]) (by rw [hf.2.2, hnf.2.2]; omega)
  rw [celt_decode_eq] at hrun
  rw [if_neg hband] at hrun
  rw [if_pos hava0] at hrun
  rw [hsil] at hrun
  rw [ite_true_eq] at hrun
  obtain ⟨isb, dsb, tb, lw, hcb⟩ := celtBody_silent
    ⟨if toc.mode = EncodeMode.Hybrid then 17 else 0, toc.bandwidth.band,
      ilog2 (toc.duration.samples / SHORT_BLOCKSIZE), true, false, toc.channels,
      List.replicate MAX_BANDS 0, none, List.replicate MAX_BANDS 0, 0, 0⟩
    ((RangeCodingDecoder.new bytes).logp 15).2.toEnd hava1 htf1 rfl
  rw [hcb] at hrun
  have hok := Except.ok.inj hrun
  have h1 := Prod.mk.inj hok
  have h2 := Prod.mk.inj h1.2
  refine ⟨?_, ?_, ?_, ?_, ?_, ?_, ?_⟩
  · rw [← h1.1]
  · exact h2.2.symm
  · rw [← h1.1]
  · rw [← h1.1]
  · rw [← h2.1]
  · rw [← h1.1]
  · rw [← h1.1]

/-- C4 witness: the all-ones four-byte frame decodes silent, with no
transient and the default trim 5. -/
theorem c4_witness :
    (2 ≤ ([255, 255, 255, 255] : List Nat).length) ∧
    (((RangeCodingDecoder.new [255, 255, 255, 255]).logp 15).1 = true) ∧
    (Except.map (fun r => (r.1.silence, r.1.transient, r.1.alloc_trim))
        (CeltFrameDecoder.decode (TableOfContents.decode 0x80)
          (RangeCodingDecoder.new [255, 255, 255, 255])) =
      Except.ok (true, false, 5)) := by
  refine ⟨by decide, by decide, ?_⟩
  have h0 : Except.map (fun r => r.1.silence)
      (CeltFrameDecoder.decode (TableOfContents.decode 0x80)
        (RangeCodingDecoder.new [255, 255, 255, 255])) = Except.ok true := by decide
  rcases hrun : CeltFrameDecoder.decode (TableOfContents.decode 0x80)
      (RangeCodingDecoder.new [255, 255, 255, 255]) with e | ⟨d, t, r⟩
  · rw [hrun] at h0
    exact Except.noConfusion h0
  · have h := c4_silent_frame_reads_nothing [255, 255, 255, 255]
      (TableOfContents.decode 0x80) (by decide) d t r hrun (by decide)
    show Except.ok (d.silence, d.transient, d.alloc_trim) = Except.ok (true, false, 5)
    rw [h.1, h.2.2.1, h.2.2.2.2.2.1]

end Aquarana
